import Mathlib

/-!
Verification of the release helper (`scripts/release.py`) of the
rusty-timer repository.

The script is embedded shallowly:

* Python strings are modelled as `List Char` (`PyStr`); the Python string
  operations used by the script (`strip`, `lstrip`, `startswith`,
  `endswith`, `split`, f-string number formatting, `int`) are given
  executable Lean counterparts below, restricted to the character set the
  script actually handles (ASCII manifests and version strings).
* The pure text functions `update_package_version`, `bump_version`,
  `compute_new_version`, `parse_semver`, `server_image_tags` are translated
  line by line from the source.
* `read_version` delegates its parsing to Python's `tomllib`; it is
  modelled here by a reader for the TOML subset the manifests use
  (`[section]` headers and a quoted-string `version` key inside
  `[package]`), including TOML's rejection of duplicate keys.
* The transactional `main` (safety checks, planning, per-component
  stage/verify/commit/tag, atomic push, rollback) is modelled as a pure
  function from an environment (which external commands succeed, the
  starting revision, ...) to the list of performed side effects plus the
  process exit code.  External commands are opaque argv vectors, exactly
  as the script treats them.
-/

namespace RustyTimer

/-- A Python string, modelled as its list of characters. -/
abbrev PyStr := List Char

/-- The whitespace characters stripped by Python's `str.strip()` /
`str.lstrip()` (restricted to the ASCII range, which is all the script's
inputs use): space, tab, newline, carriage return, vertical tab, form feed. -/
def isPyWS (c : Char) : Bool :=
  c = ' ' || c = '\t' || c = '\n' || c = '\r' || c.toNat = 11 || c.toNat = 12

/-- Python `str.lstrip()`. -/
def lstripL (s : PyStr) : PyStr := s.dropWhile isPyWS

/-- Python `str.rstrip()`. -/
def rstripL (s : PyStr) : PyStr := (s.reverse.dropWhile isPyWS).reverse

/-- Python `str.strip()`. -/
def pyStrip (s : PyStr) : PyStr := rstripL (lstripL s)

/-- Python `str.startswith(p)`. -/
def startsWithL : PyStr → PyStr → Bool
  | [], _ => true
  | _ :: _, [] => false
  | p :: ps, c :: cs => p = c && startsWithL ps cs

/-- Python `str.endswith(p)`. -/
def endsWithL (p s : PyStr) : Bool := startsWithL p.reverse s.reverse

/-- Python `str.split(".")` (single-character separator). -/
def splitDot : PyStr → List PyStr
  | [] => [[]]
  | c :: rest =>
    if c = '.' then [] :: splitDot rest
    else
      match splitDot rest with
      | [] => [[c]]
      | r :: rs => (c :: r) :: rs

/-- Python `int(s)` restricted to the nonempty digit strings that version
components are (the full `int` also accepts signs, underscores and
surrounding whitespace, none of which survive the CLI's `X.Y.Z` format
check). `none` models the `ValueError` the script lets escape. -/
def parseNatL (s : PyStr) : Option Nat :=
  if s ≠ [] ∧ s.all Char.isDigit then
    some (s.foldl (fun a c => 10 * a + (c.toNat - 48)) 0)
  else none

/-- Decimal digits of `n`, most significant first; fuel-structured so that
it reduces by `decide`/`rfl`. Empty for `n = 0` (handled by `natToChars`). -/
def natToCharsAux : Nat → Nat → PyStr
  | 0, _ => []
  | fuel + 1, n =>
    if n = 0 then []
    else natToCharsAux fuel (n / 10) ++ [Char.ofNat (48 + n % 10)]

/-- Python `str(n)` / f-string formatting of a nonnegative integer. -/
def natToChars (n : Nat) : PyStr :=
  if n = 0 then ['0'] else natToCharsAux (n + 1) n

-- String literals used by the script, as character lists.

def pkgHdr : PyStr := "[package]".data
def vKey : PyStr := "version".data
def lBrk : PyStr := "[".data
def rBrk : PyStr := "]".data
def crlfS : PyStr := "\r\n".data
def nlS : PyStr := "\n".data
def versionEqQuote : PyStr := "version = \"".data
def quoteS : PyStr := "\"".data
def hashS : PyStr := "#".data
def masterS : PyStr := "master".data

/-! ### VersionStore: `update_package_version` (source lines 189–208) -/

/-- The original line terminator preserved by the rewrite: the source
checks `line.endswith("\r\n")`, then `line.endswith("\n")`, else keeps
no terminator. -/
def lineEnd (l : PyStr) : PyStr :=
  if endsWithL crlfS l then crlfS else if endsWithL nlS l then nlS else []

/-- `prefix = line[: len(line) - len(line.lstrip())]`: the leading
whitespace of the line. -/
def linePrefixWS (l : PyStr) : PyStr := l.takeWhile isPyWS

/-- `lines[i] = f'{prefix}version = "{new_version}"{line_ending}'`. -/
def rewriteLine (newVersion : PyStr) (l : PyStr) : PyStr :=
  linePrefixWS l ++ versionEqQuote ++ newVersion ++ quoteS ++ lineEnd l

/-- A stripped line that opens a TOML table: starts with `[`, ends with
`]` (the `stripped.startswith("[") and stripped.endswith("]")` test). -/
def isSectionHeaderLine (s : PyStr) : Bool :=
  startsWithL lBrk s && endsWithL rBrk s

/-- The scan loop of `update_package_version`: `inPkg` is the `in_package`
flag; a `[...]` section header while inside `[package]` breaks (→ the
trailing `ValueError`, i.e. `none`); the first line inside `[package]`
whose stripped text starts with `version` is rewritten; falling off the
end is the `ValueError` as well. -/
def upvLoop (newVersion : PyStr) (inPkg : Bool) : List PyStr → Option (List PyStr)
  | [] => none
  | l :: rest =>
    let s := pyStrip l
    if s = pkgHdr then (upvLoop newVersion true rest).map (l :: ·)
    else if inPkg && isSectionHeaderLine s then none
    else if inPkg && startsWithL vKey s then some (rewriteLine newVersion l :: rest)
    else (upvLoop newVersion inPkg rest).map (l :: ·)

/-- `update_package_version(text, new_version)`, at the granularity of the
line list produced by `text.splitlines(keepends=True)` (each element keeps
its terminator); `none` models the raised `ValueError`. -/
def update_package_version (newVersion : PyStr) (lines : List PyStr) : Option (List PyStr) :=
  upvLoop newVersion false lines

/-! ### VersionStore: `read_version` (source lines 148–156)

`read_version` parses the manifest with `tomllib.load` and extracts
`data["package"]["version"]`, exiting with an error when the value is
absent or falsy. `tomllib` is an external library; it is modelled here on
the TOML subset the manifests use: `[section]` headers, one quoted-string
`version = "..."` key inside `[package]` (optionally followed by a `#`
comment), other lines opaque. Faithful to TOML, a duplicated `version`
key inside `[package]` is an error (`tomllib` raises
"Cannot overwrite a value"), hence `none` when the section holds more
than one version assignment. -/

/-- The lines of the `[package]` table: everything after the first
`[package]` header up to the next section header; `none` when there is no
`[package]` header at all. -/
def packageRegion : List PyStr → Option (List PyStr)
  | [] => none
  | l :: rest =>
    if pyStrip l = pkgHdr then
      some (rest.takeWhile (fun x => !(isSectionHeaderLine (pyStrip x))))
    else packageRegion rest

/-- Parse a stripped line as `version = "<value>"` (whitespace around `=`
optional, optional trailing `#` comment). `none` when the line is not a
version assignment — in particular for keys that merely have `version` as
a prefix, such as `versioning`. -/
def parseVersionAssign (s : PyStr) : Option PyStr :=
  if startsWithL vKey s then
    match lstripL (s.drop 7) with
    | '=' :: r2 =>
      match lstripL r2 with
      | '"' :: r4 =>
        let val := r4.takeWhile (fun c => c ≠ '"')
        match r4.dropWhile (fun c => c ≠ '"') with
        | '"' :: tail =>
          let t := lstripL tail
          if t = [] || startsWithL hashS t then some val else none
        | _ => none
      | _ => none
    | _ => none
  else none

/-- `read_version`, at line-list granularity: the version value of the
`[package]` table, `none` on a missing section/key, a duplicated key, or
a falsy (empty) value — all of which make the script fail. -/
def read_version (lines : List PyStr) : Option PyStr :=
  match packageRegion lines with
  | none => none
  | some region =>
    match region.filterMap (fun l => parseVersionAssign (pyStrip l)) with
    | [v] => if v = [] then none else some v
    | _ => none

/-! ### ReleasePlanner: `parse_semver`, `bump_version`, `compute_new_version`
(source lines 159–175, 211–213) -/

/-- `parse_semver(v)`: split on `.`, convert the first three parts with
`int`; `none` models the `IndexError`/`ValueError` the script lets escape
when fewer than three parts exist or a part is not a number. (The same
split-and-convert is also inlined at the top of `bump_version`.) -/
def parse_semver (v : PyStr) : Option (Nat × Nat × Nat) :=
  match splitDot v with
  | p0 :: p1 :: p2 :: _ =>
    match parseNatL p0, parseNatL p1, parseNatL p2 with
    | some a, some b, some c => some (a, b, c)
    | _, _, _ => none
  | _ => none

/-- Render a version triple back to its `f"{maj}.{min}.{pat}"` string. -/
def renderVersion (maj min pat : Nat) : PyStr :=
  natToChars maj ++ '.' :: (natToChars min ++ '.' :: natToChars pat)

/-- `bump_version(current, major=, minor=, patch=)`: parse the current
triple, then format the bumped one; `none` both for an unparsable current
version and for the final `raise ValueError` when no bump flag is set. -/
def bump_version (current : PyStr) (major minor patch : Bool) : Option PyStr :=
  match parse_semver current with
  | none => none
  | some (maj, min, pat) =>
    if major then some (renderVersion (maj + 1) 0 0)
    else if minor then some (renderVersion maj (min + 1) 0)
    else if patch then some (renderVersion maj min (pat + 1))
    else none

/-- The five services of `VALID_SERVICES`. -/
inductive Svc
  | forwarder
  | receiver
  | streamer
  | emulator
  | server
deriving DecidableEq

/-- The service's name string. -/
def svcName : Svc → PyStr
  | Svc.forwarder => "forwarder".data
  | Svc.receiver => "receiver".data
  | Svc.streamer => "streamer".data
  | Svc.emulator => "emulator".data
  | Svc.server => "server".data

/-- `UI_WORKSPACES.get(service)` (`service_ui_workspace`). -/
def service_ui_workspace : Svc → Option PyStr
  | Svc.forwarder => some ("apps/forwarder-ui".data)
  | Svc.receiver => some ("apps/receiver-ui".data)
  | Svc.server => some ("apps/server-ui".data)
  | _ => none

/-- `service_uses_embed_ui`: membership in `EMBED_UI_SERVICES`. -/
def service_uses_embed_ui (s : Svc) : Bool :=
  s = Svc.forwarder || s = Svc.receiver

/-- `PACKAGE_NAME_OVERRIDES.get(service, service)`. -/
def packageNameOf : Svc → PyStr
  | Svc.emulator => "emulator-bin".data
  | s => svcName s

/-- `f"services/{service}/Cargo.toml"`. -/
def cargoPath (s : Svc) : PyStr :=
  "services/".data ++ svcName s ++ "/Cargo.toml".data

/-- `f"chore({service}): bump version to {new}"`. -/
def commitMsg (s : Svc) (newV : PyStr) : PyStr :=
  "chore(".data ++ svcName s ++ "): bump version to ".data ++ newV

/-- `f"{service}-v{new}"`. -/
def tagNameOf (s : Svc) (newV : PyStr) : PyStr :=
  svcName s ++ "-v".data ++ newV

/-- `server_image_tags(image_repo, version)` (source lines 224–225). -/
def server_image_tags (imageRepo version : PyStr) : PyStr × PyStr :=
  (imageRepo ++ ":v".data ++ version, imageRepo ++ ":latest".data)

/-- The parsed command-line arguments relevant to the core (the
`argparse.Namespace` after validation; `version` is `none` when a bump
flag was used, and argparse guarantees exactly one bump selector). -/
structure Args where
  services : List Svc
  major : Bool
  minor : Bool
  patch : Bool
  version : Option PyStr
  dryRun : Bool
  yes : Bool
  serverDockerImage : PyStr
  serverLocalDockerBuild : Bool

/-- `compute_new_version(current, args)`: the explicit `--version` value
when given (argparse guarantees it nonempty, so Python's truthiness test
is `isSome`), else the bumped version. -/
def compute_new_version (current : PyStr) (a : Args) : Option PyStr :=
  match a.version with
  | some v => some v
  | none => bump_version current a.major a.minor a.patch

/-! ### VerificationPipeline and the transaction (source lines 228–308,
311–458)

External commands are opaque argv vectors; the constructors of `Cmd`
carry exactly the varying arguments, and `cmdArgv` spells out the full
argv each constructor stands for, so the correspondence with the
`log_command`/`run` call sites can be checked verbatim. -/

/-- The external commands the script can run. -/
inductive Cmd
  | npmCi
  | npmLint (ws : PyStr)
  | npmCheck (ws : PyStr)
  | npmTest (ws : PyStr)
  | dockerBuild (versionTag latestTag : PyStr)
  | cargoBuild (pkg bin : PyStr) (embedUi : Bool)
  | gitAdd (manifestPath : PyStr)
  | gitCommit (msg : PyStr)
  | gitTag (tag : PyStr)
  | gitPush (tags : List PyStr)
  | gitTagDelete (tag : PyStr)
  | gitResetHard (rev : PyStr)
deriving DecidableEq

/-- The argv vector each `Cmd` stands for, verbatim from the source. -/
def cmdArgv : Cmd → List PyStr
  | Cmd.npmCi => ["npm".data, "ci".data]
  | Cmd.npmLint ws => ["npm".data, "run".data, "lint".data, "--workspace".data, ws]
  | Cmd.npmCheck ws => ["npm".data, "run".data, "check".data, "--workspace".data, ws]
  | Cmd.npmTest ws => ["npm".data, "test".data, "--workspace".data, ws]
  | Cmd.dockerBuild tv tl =>
    ["docker".data, "build".data, "-t".data, tv, "-t".data, tl,
     "-f".data, "services/server/Dockerfile".data, ".".data]
  | Cmd.cargoBuild pkg bin embedUi =>
    ["cargo".data, "build".data, "--release".data, "--package".data, pkg,
     "--bin".data, bin]
      ++ (if embedUi then ["--features".data, "embed-ui".data] else [])
  | Cmd.gitAdd p => ["git".data, "add".data, p, "Cargo.lock".data]
  | Cmd.gitCommit m => ["git".data, "commit".data, "-m".data, m]
  | Cmd.gitTag t => ["git".data, "tag".data, t]
  | Cmd.gitPush tags =>
    ["git".data, "push".data, "--atomic".data, "origin".data, "master".data] ++ tags
  | Cmd.gitTagDelete t => ["git".data, "tag".data, "-d".data, t]
  | Cmd.gitResetHard r => ["git".data, "reset".data, "--hard".data, r]

/-- The commands run (always for real, dry run included) by
`run_release_workflow_checks`: UI checks when the service has a UI
workspace; then either the local server Docker build (which returns
early, replacing the release build) or the release build. -/
def release_workflow_cmds (s : Svc) (newVersion serverDockerImage : PyStr)
    (serverLocalDockerBuild : Bool) : List Cmd :=
  (match service_ui_workspace s with
   | some ws => [Cmd.npmCi, Cmd.npmLint ws, Cmd.npmCheck ws, Cmd.npmTest ws]
   | none => [])
    ++
  (if s = Svc.server && serverLocalDockerBuild then
    [Cmd.dockerBuild (server_image_tags serverDockerImage newVersion).1
      (server_image_tags serverDockerImage newVersion).2]
   else
    [Cmd.cargoBuild (packageNameOf s) (svcName s) (service_uses_embed_ui s)])

/-- `rollback_transaction(start_head, created_tags)` (source lines
305–308): delete the created tags in reverse order, then hard-reset; both
with `check=False`, so every command is attempted regardless of earlier
failures. -/
def rollback_transaction (startHead : PyStr) (createdTags : List PyStr) : List Cmd :=
  createdTags.reverse.map Cmd.gitTagDelete ++ [Cmd.gitResetHard startHead]

/-- An observable side effect of a run: a manifest write
(`write_version`) or an executed external command. `log_command` with
`execute=False` only prints, so it produces no effect. -/
inductive Eff
  | write (s : Svc) (newVersion : PyStr)
  | run (c : Cmd)
deriving DecidableEq

/-- The environment a run executes against: the git preconditions, the
revision `git rev-parse HEAD` reports, the interactive confirmation
answer, each service's manifest read result (`read_version` via
`tomllib`), whether `update_package_version` succeeds on the service's
manifest at write time, and which external commands exit zero. -/
structure Env where
  dirty : Bool
  branch : PyStr
  startHead : PyStr
  confirm : Bool
  readV : Svc → Option PyStr
  writeOk : Svc → Bool
  cmdOk : Cmd → Bool

/-- A plan item `(service, current, new)`. -/
abbrev PlanItem := Svc × PyStr × PyStr

/-- The observable outcome of a run: the performed effects in order, and
the process exit code. -/
structure RunResult where
  effects : List Eff
  exitCode : Nat
deriving DecidableEq

/-- How a single plan item's execution ends: all steps passed; an
external command exited non-zero (`subprocess.CalledProcessError`, caught
by the transaction's handler); or `write_version` hit a `ValueError` and
called `sys.exit(1)` (a `SystemExit`, which the handler does not catch). -/
inductive ItemOutcome
  | passed
  | cpe
  | exited

/-- Run a command sequence in order, stopping at the first non-zero exit
(`run` has `check=True`): the executed commands' effects plus whether all
passed. -/
def runSeq (env : Env) : List Cmd → List Eff × Bool
  | [] => ([], true)
  | c :: rest =>
    if env.cmdOk c then
      let r := runSeq env rest
      (Eff.run c :: r.1, r.2)
    else ([Eff.run c], false)

/-- The commands a plan item executes: the verification workflow (always
executed), then — only in a non-dry run — stage, commit, tag. -/
def itemCmds (a : Args) (s : Svc) (newV : PyStr) : List Cmd :=
  release_workflow_cmds s newV a.serverDockerImage a.serverLocalDockerBuild
    ++ (if a.dryRun then []
        else [Cmd.gitAdd (cargoPath s), Cmd.gitCommit (commitMsg s newV),
              Cmd.gitTag (tagNameOf s newV)])

/-- Execute one plan item (source lines 378–429): in a non-dry run first
the manifest write (whose failure is a `sys.exit(1)` bypassing the
transaction handler), then the item's command sequence. -/
def execItem (env : Env) (a : Args) (s : Svc) (newV : PyStr) :
    List Eff × ItemOutcome :=
  if !a.dryRun && !env.writeOk s then ([], ItemOutcome.exited)
  else
    let writeEff : List Eff := if a.dryRun then [] else [Eff.write s newV]
    let r := runSeq env (itemCmds a s newV)
    (writeEff ++ r.1, if r.2 then ItemOutcome.passed else ItemOutcome.cpe)

/-- The effects of `rollback_transaction`. -/
def rollbackEffects (startHead : PyStr) (tags : List PyStr) : List Eff :=
  (rollback_transaction startHead tags).map Eff.run

/-- The tags pushed at the final step: in a dry run over a nonempty plan
the would-be tags recomputed from the plan, otherwise the accumulated
created-tag list. -/
def pushTagsOf (a : Args) (fullPlan : List PlanItem) (tags : List PyStr) : List PyStr :=
  if a.dryRun && !fullPlan.isEmpty then
    fullPlan.map (fun it => tagNameOf it.1 it.2.2)
  else tags

/-- The `try`-block of `main` plus its `except` handler, over the
remaining plan items and the created-tag list threaded through the run:
on a command failure the handler rolls back (non-dry runs only) and exits
1; on a `write_version` exit no handler runs at all; after the last item
the atomic push is executed (`execute=not dry_run`), its failure handled
by the same handler. -/
def execPlanAux (env : Env) (a : Args) (fullPlan : List PlanItem) :
    List PlanItem → List PyStr → RunResult
  | [], tags =>
    let pc := Cmd.gitPush (pushTagsOf a fullPlan tags)
    if a.dryRun then ⟨[], 0⟩
    else if env.cmdOk pc then ⟨[Eff.run pc], 0⟩
    else ⟨Eff.run pc :: rollbackEffects env.startHead tags, 1⟩
  | (s, _cur, newV) :: rest, tags =>
    let r := execItem env a s newV
    match r.2 with
    | ItemOutcome.exited => ⟨r.1, 1⟩
    | ItemOutcome.cpe =>
      ⟨r.1 ++ (if a.dryRun then [] else rollbackEffects env.startHead tags), 1⟩
    | ItemOutcome.passed =>
      let tags2 := if a.dryRun then tags else tags ++ [tagNameOf s newV]
      let r2 := execPlanAux env a fullPlan rest tags2
      ⟨r.1 ++ r2.effects, r2.exitCode⟩

/-- Execute a (nonempty) release plan from an empty created-tag list. -/
def mainExec (env : Env) (a : Args) (plan : List PlanItem) : RunResult :=
  execPlanAux env a plan plan []

/-- `list(dict.fromkeys(args.services))`: deduplicate, keeping first
occurrences in order. -/
def dedupAux (seen : List Svc) : List Svc → List Svc
  | [] => []
  | s :: rest =>
    if s ∈ seen then dedupAux seen rest else s :: dedupAux (s :: seen) rest

/-- The deduplicated service list. -/
def dedupSvcs (l : List Svc) : List Svc := dedupAux [] l

/-- The planning loop (source lines 329–342): read the current version
(`none` = the `sys.exit(1)` inside `read_version`), compute the target,
classify equal versions as skipped, otherwise plan the item — after the
downgrade check, whose `parse_semver` calls can themselves raise (and
then abort the script) on versions outside `X.Y.Z`. -/
def buildPlan (readV : Svc → Option PyStr) (a : Args) :
    List Svc → Option (List PlanItem × List (Svc × PyStr))
  | [] => some ([], [])
  | s :: rest =>
    match readV s with
    | none => none
    | some cur =>
      match compute_new_version cur a with
      | none => none
      | some newV =>
        if cur = newV then
          match buildPlan readV a rest with
          | none => none
          | some (pl, sk) => some (pl, (s, cur) :: sk)
        else
          match parse_semver newV, parse_semver cur with
          | some _, some _ =>
            match buildPlan readV a rest with
            | none => none
            | some (pl, sk) => some ((s, cur, newV) :: pl, sk)
          | _, _ => none

/-- `main` (source lines 311–458): safety checks (dirty tree, branch), the
planning pass, the empty-plan early return, the confirmation prompt, then
the transactional execution. Exit code 1 models every `sys.exit(1)` and
the handler's exit; 0 models normal termination and the declined
confirmation's `sys.exit(0)`. -/
def mainModel (env : Env) (a : Args) : RunResult :=
  if env.dirty then ⟨[], 1⟩
  else if env.branch ≠ masterS then ⟨[], 1⟩
  else
    match buildPlan env.readV a (dedupSvcs a.services) with
    | none => ⟨[], 1⟩
    | some (plan, _skipped) =>
      if plan.isEmpty then ⟨[], 0⟩
      else if !a.yes && !env.confirm then ⟨[], 0⟩
      else mainExec env a plan

/-! ### A minimal repository-state view of the rollback commands

Used only to state that a rollback over an empty created-tag list leaves
the repository state unchanged when `HEAD` already equals the captured
revision (claim C9); only the two commands `rollback_transaction`
issues are given a state semantics, every other command is outside this
view's scope. -/

/-- The rollback-relevant repository state: `HEAD` and the tag list. -/
structure RepoState where
  head : PyStr
  tagList : List PyStr
deriving DecidableEq

/-- State effect of the two rollback commands (`git tag -d`,
`git reset --hard`). -/
def applyUndoCmd (st : RepoState) : Cmd → RepoState
  | Cmd.gitTagDelete t => ⟨st.head, st.tagList.erase t⟩
  | Cmd.gitResetHard r => ⟨r, st.tagList⟩
  | _ => st

/-- Fold a command list over the repository state. -/
def applyUndoAll (st : RepoState) (cs : List Cmd) : RepoState :=
  cs.foldl applyUndoCmd st

/-! ### Derived notions used in the statements -/

/-- A verification command (UI checks, Docker build, release build), as
opposed to a git mutation. -/
def isVerifCmd : Cmd → Bool
  | Cmd.npmCi => true
  | Cmd.npmLint _ => true
  | Cmd.npmCheck _ => true
  | Cmd.npmTest _ => true
  | Cmd.dockerBuild _ _ => true
  | Cmd.cargoBuild _ _ _ => true
  | _ => false

/-- A `cargo build` command. -/
def isCargoBuild : Cmd → Bool
  | Cmd.cargoBuild _ _ _ => true
  | _ => false

/-- A rollback effect: an executed `git tag -d` or `git reset --hard`. -/
def isRollbackEff : Eff → Bool
  | Eff.run (Cmd.gitTagDelete _) => true
  | Eff.run (Cmd.gitResetHard _) => true
  | _ => false

/-- The full effect trace of one successfully executed plan item in a
non-dry run: the manifest write, then every item command. -/
def itemTrace (a : Args) (it : PlanItem) : List Eff :=
  Eff.write it.1 it.2.2 :: (itemCmds a it.1 it.2.2).map Eff.run

/-- The tags a plan creates, in order. -/
def planTagsOf (plan : List PlanItem) : List PyStr :=
  plan.map (fun it => tagNameOf it.1 it.2.2)

/-- Every step of the item succeeds: the manifest write and all its
commands. -/
abbrev itemAllOk (env : Env) (a : Args) (it : PlanItem) : Prop :=
  env.writeOk it.1 = true ∧ ∀ c ∈ itemCmds a it.1 it.2.2, env.cmdOk c = true

/-- Every verification command of the item succeeds. -/
abbrev itemVerifOk (env : Env) (a : Args) (it : PlanItem) : Prop :=
  ∀ c ∈ release_workflow_cmds it.1 it.2.2 a.serverDockerImage a.serverLocalDockerBuild,
    env.cmdOk c = true

/-! ### Concrete inputs used by the witnesses and counterexamples -/

/-- `release.py forwarder --patch --yes` (non-dry). -/
def argsFwd : Args :=
  ⟨[Svc.forwarder], false, false, true, none, false, true,
   "iwismer/rt-server".data, false⟩

/-- `release.py forwarder receiver --patch --yes` (non-dry). -/
def argsFwdRecv : Args :=
  ⟨[Svc.forwarder, Svc.receiver], false, false, true, none, false, true,
   "iwismer/rt-server".data, false⟩

/-- `release.py forwarder --patch --yes --dry-run`. -/
def argsFwdDry : Args :=
  ⟨[Svc.forwarder], false, false, true, none, true, true,
   "iwismer/rt-server".data, false⟩

/-- `release.py forwarder --version 0.1.0 --yes`: explicit target equal to
the current version. -/
def argsFwdSame : Args :=
  ⟨[Svc.forwarder], false, false, false, some ("0.1.0".data), false, true,
   "iwismer/rt-server".data, false⟩

/-- Clean tree on master at revision `abc123`; every manifest reads
`0.1.0`, every write succeeds, every external command exits zero. -/
def envAllOk : Env :=
  ⟨false, masterS, "abc123".data, true,
   fun _ => some ("0.1.0".data), fun _ => true, fun _ => true⟩

/-- Like `envAllOk` but the final `git push` exits non-zero. -/
def envPushFail : Env :=
  ⟨false, masterS, "abc123".data, true,
   fun _ => some ("0.1.0".data), fun _ => true,
   fun c => match c with
     | Cmd.gitPush _ => false
     | _ => true⟩

/-- Like `envAllOk` but the receiver's manifest write hits the
`ValueError` inside `write_version` (its `[package]` version line is not
found by the line scanner at write time). -/
def envRecvWriteFail : Env :=
  ⟨false, masterS, "abc123".data, true,
   fun _ => some ("0.1.0".data),
   fun s => !(s = Svc.receiver), fun _ => true⟩

/-- Like `envAllOk` but the receiver's release build exits non-zero (the
scenario of the repository's own rollback unit test). -/
def envRecvBuildFail : Env :=
  ⟨false, masterS, "abc123".data, true,
   fun _ => some ("0.1.0".data), fun _ => true,
   fun c => match c with
     | Cmd.cargoBuild _ bin _ => !(bin = "receiver".data)
     | _ => true⟩

/-- A valid manifest whose `[package]` section has a `versioning` key
before the genuine `version` key. -/
def trickyManifest : List PyStr :=
  ["[package]\n".data, "versioning = \"scheme\"\n".data,
   "version = \"1.2.3\"\n".data]

/-- `trickyManifest` after `update_package_version(..., "9.9.9")`: the
`versioning` line was rewritten, leaving two `version` keys. -/
def trickyManifestAfter : List PyStr :=
  ["[package]\n".data, "version = \"9.9.9\"\n".data,
   "version = \"1.2.3\"\n".data]

/-! ## Theorems

First the literal decompositions, then generic list/string lemmas, then
the structural lemmas about the version rewrite, the planner arithmetic,
and the transaction, and finally one theorem per claim. -/

theorem crlfS_eq : crlfS = ['\r', '\n'] := rfl

theorem nlS_eq : nlS = ['\n'] := rfl

theorem quoteS_eq : quoteS = ['"'] := rfl

theorem vKey_len : vKey.length = 7 := rfl

theorem versionEqQuote_eq :
    versionEqQuote = 'v' :: 'e' :: 'r' :: 's' :: 'i' :: 'o' :: 'n' :: ' ' :: '=' :: ' ' :: ['"'] := rfl

theorem versionEqQuote_split : versionEqQuote = vKey ++ (' ' :: '=' :: ' ' :: ['"']) := rfl

theorem pkgHdr_head : pkgHdr = '[' :: "package]".data := rfl

/-! ### Generic list lemmas -/

theorem dropWhile_append_all {α : Type} (p : α → Bool) (w r : List α)
    (h : ∀ c ∈ w, p c = true) : (w ++ r).dropWhile p = r.dropWhile p := by
  induction w with
  | nil => rfl
  | cons c cs ih =>
    simp only [List.cons_append, List.dropWhile_cons, h c (List.mem_cons_self _ _)]
    exact ih (fun x hx => h x (List.mem_cons_of_mem _ hx))

theorem takeWhile_append_all {α : Type} (p : α → Bool) (w r : List α)
    (h : ∀ c ∈ w, p c = true) : (w ++ r).takeWhile p = w ++ r.takeWhile p := by
  induction w with
  | nil => rfl
  | cons c cs ih =>
    simp only [List.cons_append, List.takeWhile_cons, h c (List.mem_cons_self _ _)]
    simp only [List.cons_append, ih (fun x hx => h x (List.mem_cons_of_mem _ hx))]
    simp

theorem mem_takeWhile_all {α : Type} (p : α → Bool) :
    ∀ (l : List α) (x : α), x ∈ l.takeWhile p → p x = true := by
  intro l
  induction l with
  | nil => intro x hx; simp [List.takeWhile] at hx
  | cons c cs ih =>
    intro x hx
    rw [List.takeWhile_cons] at hx
    cases hpc : p c with
    | true =>
      rw [hpc] at hx
      simp only [if_true] at hx
      rcases List.mem_cons.1 hx with rfl | hmem
      · exact hpc
      · exact ih x hmem
    | false =>
      rw [hpc] at hx
      simp at hx

theorem filterMap_all_none {α β : Type} (f : α → Option β) (l : List α)
    (h : ∀ x ∈ l, f x = none) : l.filterMap f = [] := by
  induction l with
  | nil => rfl
  | cons c cs ih =>
    rw [List.filterMap_cons, h c (List.mem_cons_self _ _)]
    exact ih (fun x hx => h x (List.mem_cons_of_mem _ hx))

/-! ### Stripping lemmas -/

theorem lstripL_append_ws (w r : PyStr) (h : ∀ c ∈ w, isPyWS c = true) :
    lstripL (w ++ r) = lstripL r :=
  dropWhile_append_all isPyWS w r h

theorem lstripL_cons_not_ws (c : Char) (r : PyStr) (h : isPyWS c = false) :
    lstripL (c :: r) = c :: r := by
  simp [lstripL, List.dropWhile_cons, h]

theorem rstripL_append_ws (r w : PyStr) (h : ∀ c ∈ w, isPyWS c = true) :
    rstripL (r ++ w) = rstripL r := by
  unfold rstripL
  rw [List.reverse_append]
  rw [dropWhile_append_all isPyWS w.reverse r.reverse
    (fun c hc => h c (List.mem_reverse.1 hc))]

theorem rstripL_concat_not_ws (r : PyStr) (c : Char) (h : isPyWS c = false) :
    rstripL (r ++ [c]) = r ++ [c] := by
  unfold rstripL
  rw [List.reverse_append]
  simp only [List.reverse_cons, List.reverse_nil, List.nil_append, List.singleton_append,
    List.dropWhile_cons, h]
  simp

theorem lineEnd_ws (l : PyStr) : ∀ c ∈ lineEnd l, isPyWS c = true := by
  intro c hc
  unfold lineEnd at hc
  split at hc
  · rw [crlfS_eq] at hc
    rcases List.mem_cons.1 hc with rfl | hc2
    · decide
    · rcases List.mem_singleton.1 hc2 with rfl
      decide
  · split at hc
    · rw [nlS_eq] at hc
      rcases List.mem_singleton.1 hc with rfl
      decide
    · simp at hc

theorem linePrefixWS_ws (l : PyStr) : ∀ c ∈ linePrefixWS l, isPyWS c = true :=
  fun c hc => mem_takeWhile_all isPyWS l c hc

/-- Stripping a string of the shape `whitespace ++ core ++ whitespace`
where the core starts and ends in non-whitespace yields exactly the
core. -/
theorem pyStrip_sandwich (w m w2 : PyStr)
    (hw : ∀ c ∈ w, isPyWS c = true) (hw2 : ∀ c ∈ w2, isPyWS c = true)
    (h1 : ∃ c t, m = c :: t ∧ isPyWS c = false)
    (h2 : ∃ i d, m = i ++ [d] ∧ isPyWS d = false) :
    pyStrip (w ++ (m ++ w2)) = m := by
  unfold pyStrip
  rw [lstripL_append_ws _ _ hw]
  obtain ⟨c, t, rfl, hc⟩ := h1
  rw [show (c :: t) ++ w2 = c :: (t ++ w2) from rfl]
  rw [lstripL_cons_not_ws _ _ hc]
  rw [show c :: (t ++ w2) = (c :: t) ++ w2 from rfl]
  rw [rstripL_append_ws _ _ hw2]
  obtain ⟨i, d, hm, hd⟩ := h2
  rw [hm, rstripL_concat_not_ws _ _ hd]

/-- The stripped form of the rewritten line is exactly
`version = "<newVersion>"`: the preserved indentation and terminator are
whitespace, and the core starts and ends with non-whitespace. -/
theorem pyStrip_rewriteLine (v l : PyStr) :
    pyStrip (rewriteLine v l) = versionEqQuote ++ v ++ quoteS := by
  unfold rewriteLine
  rw [show linePrefixWS l ++ versionEqQuote ++ v ++ quoteS ++ lineEnd l
      = linePrefixWS l ++ ((versionEqQuote ++ v ++ quoteS) ++ lineEnd l) by
    simp [List.append_assoc]]
  exact pyStrip_sandwich _ _ _ (linePrefixWS_ws l) (lineEnd_ws l)
    ⟨'v', 'e' :: 'r' :: 's' :: 'i' :: 'o' :: 'n' :: ' ' :: '=' :: ' ' :: ['"'] ++ v ++ quoteS,
      by rw [versionEqQuote_eq]; rfl, by decide⟩
    ⟨versionEqQuote ++ v, '"', by rw [quoteS_eq], by decide⟩

/-! ### `startsWithL` and `parseVersionAssign` -/

theorem startsWithL_iff (p s : PyStr) : startsWithL p s = true ↔ ∃ r, s = p ++ r := by
  induction p generalizing s with
  | nil =>
    simp [startsWithL]
  | cons c ps ih =>
    cases s with
    | nil => simp [startsWithL]
    | cons d ds =>
      simp only [startsWithL, Bool.and_eq_true, decide_eq_true_eq, ih, List.cons_append]
      constructor
      · rintro ⟨rfl, r, rfl⟩
        exact ⟨r, rfl⟩
      · rintro ⟨r, hr⟩
        injection hr with h1 h2
        exact ⟨h1.symm, r, h2⟩

/-- A string starting with `version` starts with `v`, hence is neither
`[package]` nor a `[...]` section header. -/
theorem startsWith_vKey_shape (s : PyStr) (h : startsWithL vKey s = true) :
    s ≠ pkgHdr ∧ isSectionHeaderLine s = false := by
  obtain ⟨r, rfl⟩ := (startsWithL_iff vKey s).1 h
  constructor
  · intro hcontr
    have hh := congrArg List.head? hcontr
    rw [show (vKey ++ r).head? = some 'v' from rfl] at hh
    rw [show pkgHdr.head? = some '[' from rfl] at hh
    simp at hh
  · unfold isSectionHeaderLine
    rw [show startsWithL lBrk (vKey ++ r) = false from rfl]
    rfl

theorem parseVersionAssign_not_version (s : PyStr) (h : startsWithL vKey s = false) :
    parseVersionAssign s = none := by
  unfold parseVersionAssign
  rw [h]
  rfl

/-- Parsing the rewritten core `version = "<v>"` recovers `v` whenever
`v` contains no quote character. -/
theorem parseVersionAssign_core (v : PyStr) (hv : ∀ c ∈ v, ¬(c = '"')) :
    parseVersionAssign (versionEqQuote ++ v ++ quoteS) = some v := by
  have hsw : startsWithL vKey (versionEqQuote ++ v ++ quoteS) = true := by
    refine (startsWithL_iff _ _).2 ⟨' ' :: '=' :: ' ' :: ['"'] ++ v ++ quoteS, ?_⟩
    rw [versionEqQuote_split]; simp [List.append_assoc]
  have hdrop : (versionEqQuote ++ v ++ quoteS).drop 7
      = ' ' :: '=' :: ' ' :: ('"' :: (v ++ ['"'])) := by
    rw [versionEqQuote_eq, quoteS_eq]; simp [List.append_assoc]
  have h1 : lstripL (' ' :: '=' :: ' ' :: ('"' :: (v ++ ['"'])))
      = '=' :: (' ' :: ('"' :: (v ++ ['"']))) := by
    rw [show (' ' :: '=' :: ' ' :: ('"' :: (v ++ ['"'])))
        = [' '] ++ ('=' :: ' ' :: ('"' :: (v ++ ['"']))) from rfl]
    rw [lstripL_append_ws _ _ (by intro c hc; rcases List.mem_singleton.1 hc with rfl; decide)]
    exact lstripL_cons_not_ws _ _ (by decide)
  have h2 : lstripL (' ' :: ('"' :: (v ++ ['"']))) = '"' :: (v ++ ['"']) := by
    rw [show (' ' :: ('"' :: (v ++ ['"']))) = [' '] ++ ('"' :: (v ++ ['"'])) from rfl]
    rw [lstripL_append_ws _ _ (by intro c hc; rcases List.mem_singleton.1 hc with rfl; decide)]
    exact lstripL_cons_not_ws _ _ (by decide)
  have h3 : List.takeWhile (fun c => decide (c ≠ '"')) (v ++ ['"']) = v := by
    rw [takeWhile_append_all _ v ['"'] (by
      intro c hc
      simpa using hv c hc)]
    simp
  have h4 : List.dropWhile (fun c => decide (c ≠ '"')) (v ++ ['"']) = ['"'] := by
    rw [dropWhile_append_all _ v ['"'] (by
      intro c hc
      simpa using hv c hc)]
    simp
  unfold parseVersionAssign
  simp only [hsw, if_true, hdrop, h1, h2, h3, h4]
  simp [lstripL]

/-! ### Decimal formatting and parsing -/

theorem digit_isDigit (d : Nat) (h : d < 10) : (Char.ofNat (48 + d)).isDigit = true := by
  interval_cases d <;> decide

theorem digit_sub (d : Nat) (h : d < 10) : (Char.ofNat (48 + d)).toNat - 48 = d := by
  interval_cases d <;> decide

theorem natToCharsAux_digits :
    ∀ (fuel n : Nat), n ≤ fuel → ∀ c ∈ natToCharsAux fuel n, c.isDigit = true := by
  intro fuel
  induction fuel with
  | zero =>
    intro n h c hc
    simp [natToCharsAux] at hc
  | succ f ih =>
    intro n h c hc
    unfold natToCharsAux at hc
    by_cases hn : n = 0
    · simp [hn] at hc
    · rw [if_neg hn] at hc
      rcases List.mem_append.1 hc with h1 | h2
      · have hdiv : n / 10 ≤ f := by
          have hlt : n / 10 < n := Nat.div_lt_self (Nat.pos_of_ne_zero hn) (by norm_num)
          omega
        exact ih (n / 10) hdiv c h1
      · rcases List.mem_singleton.1 h2 with rfl
        exact digit_isDigit _ (Nat.mod_lt _ (by norm_num))

theorem natToChars_digits (n : Nat) : ∀ c ∈ natToChars n, c.isDigit = true := by
  intro c hc
  unfold natToChars at hc
  by_cases hn : n = 0
  · rw [if_pos hn] at hc
    rcases List.mem_singleton.1 hc with rfl
    decide
  · rw [if_neg hn] at hc
    exact natToCharsAux_digits (n + 1) n (Nat.le_succ n) c hc

theorem natToChars_no_dot (n : Nat) : ∀ c ∈ natToChars n, ¬(c = '.') := by
  intro c hc hdot
  have := natToChars_digits n c hc
  rw [hdot] at this
  exact absurd this (by decide)

theorem natToChars_ne_nil (n : Nat) : natToChars n ≠ [] := by
  unfold natToChars
  by_cases hn : n = 0
  · simp [hn]
  · rw [if_neg hn]
    unfold natToCharsAux
    rw [if_neg hn]
    simp

theorem natToCharsAux_foldl :
    ∀ (fuel n : Nat), n ≤ fuel →
      ∃ P, 0 < P ∧ ∀ a, List.foldl (fun a c => 10 * a + (c.toNat - 48)) a
        (natToCharsAux fuel n) = a * P + n := by
  intro fuel
  induction fuel with
  | zero =>
    intro n h
    refine ⟨1, Nat.one_pos, fun a => ?_⟩
    have : n = 0 := Nat.le_zero.1 h
    subst this
    simp [natToCharsAux]
  | succ f ih =>
    intro n h
    by_cases hn : n = 0
    · subst hn
      exact ⟨1, Nat.one_pos, fun a => by simp [natToCharsAux]⟩
    · have hdiv : n / 10 ≤ f := by
        have hlt : n / 10 < n := Nat.div_lt_self (Nat.pos_of_ne_zero hn) (by norm_num)
        omega
      obtain ⟨P, hP, hfold⟩ := ih (n / 10) hdiv
      refine ⟨P * 10, by positivity, fun a => ?_⟩
      unfold natToCharsAux
      rw [if_neg hn, List.foldl_append, hfold a]
      simp only [List.foldl_cons, List.foldl_nil]
      rw [digit_sub _ (Nat.mod_lt _ (by norm_num))]
      have hmod : 10 * (n / 10) + n % 10 = n := Nat.div_add_mod n 10
      ring_nf
      omega

theorem parseNatL_natToChars (n : Nat) : parseNatL (natToChars n) = some n := by
  by_cases hn : n = 0
  · subst hn
    decide
  · have hne : natToChars n ≠ [] := natToChars_ne_nil n
    have hall : (natToChars n).all Char.isDigit = true :=
      List.all_eq_true.2 (fun c hc => natToChars_digits n c hc)
    unfold parseNatL
    rw [if_pos ⟨hne, hall⟩]
    unfold natToChars
    rw [if_neg hn]
    obtain ⟨P, _, hfold⟩ := natToCharsAux_foldl (n + 1) n (Nat.le_succ n)
    rw [hfold 0]
    simp

/-! ### `splitDot` and `parse_semver` -/

theorem splitDot_no_dot (s : PyStr) (h : ∀ c ∈ s, ¬(c = '.')) : splitDot s = [s] := by
  induction s with
  | nil => rfl
  | cons c cs ih =>
    have hc : ¬(c = '.') := h c (List.mem_cons_self _ _)
    unfold splitDot
    rw [if_neg hc, ih (fun x hx => h x (List.mem_cons_of_mem _ hx))]

theorem splitDot_append_dot (x y : PyStr) (h : ∀ c ∈ x, ¬(c = '.')) :
    splitDot (x ++ '.' :: y) = x :: splitDot y := by
  induction x with
  | nil =>
    show splitDot ('.' :: y) = [] :: splitDot y
    rw [splitDot, if_pos rfl]
  | cons c cs ih =>
    have hc : ¬(c = '.') := h c (List.mem_cons_self _ _)
    show splitDot (c :: (cs ++ '.' :: y)) = (c :: cs) :: splitDot y
    rw [splitDot, if_neg hc, ih (fun x hx => h x (List.mem_cons_of_mem _ hx))]

theorem parse_semver_render (M m p : Nat) :
    parse_semver (renderVersion M m p) = some (M, m, p) := by
  unfold parse_semver renderVersion
  rw [splitDot_append_dot _ _ (natToChars_no_dot M)]
  rw [splitDot_append_dot _ _ (natToChars_no_dot m)]
  rw [splitDot_no_dot _ (natToChars_no_dot p)]
  simp [parseNatL_natToChars]

/-! ### The scan structure of `update_package_version` -/

theorem upvLoop_skip_before (v : PyStr) (A rest : List PyStr)
    (hA : ∀ l ∈ A, pyStrip l ≠ pkgHdr) :
    upvLoop v false (A ++ rest) = (upvLoop v false rest).map (A ++ ·) := by
  induction A with
  | nil =>
    rw [List.nil_append]
    cases upvLoop v false rest <;> simp
  | cons a as ih =>
    have ha : pyStrip a ≠ pkgHdr := hA a (List.mem_cons_self _ _)
    have ih' := ih (fun l hl => hA l (List.mem_cons_of_mem _ hl))
    rw [List.cons_append, upvLoop]
    simp only [if_neg ha, Bool.false_and, Bool.false_eq_true, if_false]
    rw [ih']
    cases upvLoop v false rest <;> simp

theorem upvLoop_skip_inside (v : PyStr) (B rest : List PyStr)
    (hB : ∀ l ∈ B, pyStrip l ≠ pkgHdr ∧ isSectionHeaderLine (pyStrip l) = false
      ∧ startsWithL vKey (pyStrip l) = false) :
    upvLoop v true (B ++ rest) = (upvLoop v true rest).map (B ++ ·) := by
  induction B with
  | nil =>
    rw [List.nil_append]
    cases upvLoop v true rest <;> simp
  | cons b bs ih =>
    obtain ⟨hb1, hb2, hb3⟩ := hB b (List.mem_cons_self _ _)
    have ih' := ih (fun l hl => hB l (List.mem_cons_of_mem _ hl))
    rw [List.cons_append, upvLoop]
    simp only [if_neg hb1, hb2, hb3, Bool.true_and, Bool.false_eq_true, if_false]
    rw [ih']
    cases upvLoop v true rest <;> simp

theorem upvLoop_hdr (v hline : PyStr) (rest : List PyStr)
    (hh : pyStrip hline = pkgHdr) (inPkg : Bool) :
    upvLoop v inPkg (hline :: rest) = (upvLoop v true rest).map (hline :: ·) := by
  rw [upvLoop]
  simp [hh]

theorem upvLoop_at_version (v vline : PyStr) (rest : List PyStr)
    (hv : startsWithL vKey (pyStrip vline) = true) :
    upvLoop v true (vline :: rest) = some (rewriteLine v vline :: rest) := by
  obtain ⟨hne, hnh⟩ := startsWith_vKey_shape _ hv
  rw [upvLoop]
  simp only [if_neg hne, hnh, Bool.true_and, Bool.false_eq_true, if_false, hv, if_true]

/-- The central structural fact about `update_package_version`: on a line
list whose first `[package]` header is `hline`, and whose section then
contains the lines `B` (none of which is a header or starts with
`version` once stripped) followed by the first `version`-prefixed line
`vline`, exactly `vline` is replaced and every other line — before or
after, `C` entirely untouched — is preserved byte-for-byte. -/
theorem update_package_version_structure (V : PyStr) (A : List PyStr) (hline : PyStr)
    (B : List PyStr) (vline : PyStr) (C : List PyStr)
    (hA : ∀ l ∈ A, pyStrip l ≠ pkgHdr)
    (hh : pyStrip hline = pkgHdr)
    (hB : ∀ l ∈ B, pyStrip l ≠ pkgHdr ∧ isSectionHeaderLine (pyStrip l) = false
      ∧ startsWithL vKey (pyStrip l) = false)
    (hv : startsWithL vKey (pyStrip vline) = true) :
    update_package_version V (A ++ hline :: (B ++ vline :: C))
      = some (A ++ hline :: (B ++ rewriteLine V vline :: C)) := by
  unfold update_package_version
  rw [upvLoop_skip_before V A _ hA]
  rw [upvLoop_hdr V hline _ hh false]
  rw [upvLoop_skip_inside V B _ hB]
  rw [upvLoop_at_version V vline C hv]
  simp

/-! ### The region structure of the `read_version` model -/

theorem packageRegion_skip (A rest : List PyStr)
    (hA : ∀ l ∈ A, pyStrip l ≠ pkgHdr) :
    packageRegion (A ++ rest) = packageRegion rest := by
  induction A with
  | nil => rfl
  | cons a as ih =>
    have ha : pyStrip a ≠ pkgHdr := hA a (List.mem_cons_self _ _)
    rw [List.cons_append, packageRegion, if_neg ha]
    exact ih (fun l hl => hA l (List.mem_cons_of_mem _ hl))

theorem packageRegion_hdr (hline : PyStr) (rest : List PyStr)
    (hh : pyStrip hline = pkgHdr) :
    packageRegion (hline :: rest)
      = some (rest.takeWhile (fun x => !(isSectionHeaderLine (pyStrip x)))) := by
  rw [packageRegion, if_pos hh]

theorem read_version_structure (A : List PyStr) (hline : PyStr) (B : List PyStr)
    (vline : PyStr) (C : List PyStr) (V : PyStr)
    (hA : ∀ l ∈ A, pyStrip l ≠ pkgHdr)
    (hh : pyStrip hline = pkgHdr)
    (hB : ∀ l ∈ B, isSectionHeaderLine (pyStrip l) = false
      ∧ parseVersionAssign (pyStrip l) = none)
    (hvh : isSectionHeaderLine (pyStrip vline) = false)
    (hvp : parseVersionAssign (pyStrip vline) = some V)
    (hC : ∀ l ∈ C.takeWhile (fun x => !(isSectionHeaderLine (pyStrip x))),
      parseVersionAssign (pyStrip l) = none)
    (hVne : V ≠ []) :
    read_version (A ++ hline :: (B ++ vline :: C)) = some V := by
  have hreg : packageRegion (A ++ hline :: (B ++ vline :: C))
      = some (B ++ vline :: C.takeWhile (fun x => !(isSectionHeaderLine (pyStrip x)))) := by
    rw [packageRegion_skip A _ hA, packageRegion_hdr hline _ hh]
    rw [takeWhile_append_all _ B _ (by
      intro l hl
      simp [(hB l hl).1])]
    rw [show (vline :: C).takeWhile (fun x => !(isSectionHeaderLine (pyStrip x)))
        = vline :: C.takeWhile (fun x => !(isSectionHeaderLine (pyStrip x))) by
      rw [List.takeWhile_cons]
      simp [hvh]]
  have hfm : (B ++ vline :: C.takeWhile
        (fun x => !(isSectionHeaderLine (pyStrip x)))).filterMap
      (fun l => parseVersionAssign (pyStrip l)) = [V] := by
    rw [List.filterMap_append, filterMap_all_none _ B (fun l hl => (hB l hl).2),
      List.filterMap_cons, hvp, filterMap_all_none _ _ hC]
    rfl
  unfold read_version
  simp only [hreg, hfm]
  simp [hVne]

/-! ### The command runner -/

theorem runSeq_all_ok (env : Env) (cs : List Cmd)
    (h : ∀ c ∈ cs, env.cmdOk c = true) :
    runSeq env cs = (cs.map Eff.run, true) := by
  induction cs with
  | nil => rfl
  | cons c rest ih =>
    rw [runSeq, if_pos (h c (List.mem_cons_self _ _))]
    rw [ih (fun x hx => h x (List.mem_cons_of_mem _ hx))]
    rfl

theorem runSeq_false (env : Env) (cs : List Cmd)
    (h : ¬ ∀ c ∈ cs, env.cmdOk c = true) :
    (runSeq env cs).2 = false := by
  induction cs with
  | nil => exact absurd (by simp) h
  | cons c rest ih =>
    rw [runSeq]
    by_cases hc : env.cmdOk c = true
    · rw [if_pos hc]
      refine ih (fun hall => h ?_)
      intro x hx
      rcases List.mem_cons.1 hx with rfl | hmem
      · exact hc
      · exact hall x hmem
    · rw [if_neg hc]

theorem runSeq_effects_mem (env : Env) (cs : List Cmd) :
    ∀ e ∈ (runSeq env cs).1, ∃ c ∈ cs, e = Eff.run c := by
  induction cs with
  | nil => intro e he; simp [runSeq] at he
  | cons c rest ih =>
    intro e he
    rw [runSeq] at he
    by_cases hc : env.cmdOk c = true
    · rw [if_pos hc] at he
      rcases List.mem_cons.1 he with rfl | hmem
      · exact ⟨c, List.mem_cons_self _ _, rfl⟩
      · obtain ⟨c2, hc2, he2⟩ := ih e hmem
        exact ⟨c2, List.mem_cons_of_mem _ hc2, he2⟩
    · rw [if_neg hc] at he
      rcases List.mem_singleton.1 he with rfl
      exact ⟨c, List.mem_cons_self _ _, rfl⟩

/-- A failure inside the first block stops the run before the second
block starts. -/
theorem runSeq_append_fail (env : Env) (xs ys : List Cmd)
    (h : (runSeq env xs).2 = false) :
    runSeq env (xs ++ ys) = ((runSeq env xs).1, false) := by
  induction xs with
  | nil => simp [runSeq] at h
  | cons c rest ih =>
    rw [List.cons_append, runSeq, runSeq]
    by_cases hc : env.cmdOk c = true
    · rw [if_pos hc, if_pos hc]
      rw [runSeq] at h
      rw [if_pos hc] at h
      rw [ih h]
    · rw [if_neg hc, if_neg hc]

/-! ### Classification of the workflow commands -/

theorem release_workflow_cmds_verif (s : Svc) (newV img : PyStr) (ldb : Bool) :
    ∀ c ∈ release_workflow_cmds s newV img ldb, isVerifCmd c = true := by
  intro c hc
  unfold release_workflow_cmds at hc
  rcases List.mem_append.1 hc with h1 | h2
  · cases s <;> simp [service_ui_workspace] at h1 <;>
      rcases h1 with rfl | rfl | rfl | rfl <;> rfl
  · by_cases hs : (s = Svc.server && ldb) = true
    · rw [if_pos hs] at h2
      rcases List.mem_singleton.1 h2 with rfl
      rfl
    · rw [if_neg hs] at h2
      rcases List.mem_singleton.1 h2 with rfl
      rfl

theorem itemCmds_no_push (a : Args) (s : Svc) (newV : PyStr) :
    ∀ c ∈ itemCmds a s newV, ∀ ts, ¬(c = Cmd.gitPush ts) := by
  intro c hc ts hcontr
  subst hcontr
  unfold itemCmds at hc
  rcases List.mem_append.1 hc with h1 | h2
  · have := release_workflow_cmds_verif s newV a.serverDockerImage a.serverLocalDockerBuild _ h1
    simp [isVerifCmd] at this
  · by_cases hd : a.dryRun = true
    · rw [if_pos hd] at h2
      simp at h2
    · rw [if_neg hd] at h2
      simp at h2

theorem itemCmds_tag_eq (a : Args) (s : Svc) (newV : PyStr) :
    ∀ t, Cmd.gitTag t ∈ itemCmds a s newV → t = tagNameOf s newV := by
  intro t hc
  unfold itemCmds at hc
  rcases List.mem_append.1 hc with h1 | h2
  · have := release_workflow_cmds_verif s newV a.serverDockerImage a.serverLocalDockerBuild _ h1
    simp [isVerifCmd] at this
  · by_cases hd : a.dryRun = true
    · rw [if_pos hd] at h2
      simp at h2
    · rw [if_neg hd] at h2
      simp at h2
      exact h2

/-! ### Stepping the transaction -/

theorem execItem_ok (env : Env) (a : Args) (s : Svc) (newV : PyStr)
    (hdry : a.dryRun = false) (hw : env.writeOk s = true)
    (hcmds : ∀ c ∈ itemCmds a s newV, env.cmdOk c = true) :
    execItem env a s newV
      = (Eff.write s newV :: (itemCmds a s newV).map Eff.run, ItemOutcome.passed) := by
  unfold execItem
  rw [hdry, hw]
  rw [runSeq_all_ok env _ hcmds]
  rfl

theorem execItem_fail (env : Env) (a : Args) (s : Svc) (newV : PyStr)
    (hdry : a.dryRun = false) (hw : env.writeOk s = true)
    (hfail : (runSeq env (itemCmds a s newV)).2 = false) :
    execItem env a s newV
      = (Eff.write s newV :: (runSeq env (itemCmds a s newV)).1, ItemOutcome.cpe) := by
  unfold execItem
  rw [hdry, hw]
  simp only [Bool.not_true, Bool.and_false, Bool.false_eq_true, if_false, hfail]
  rfl

theorem execItem_exited (env : Env) (a : Args) (s : Svc) (newV : PyStr)
    (hdry : a.dryRun = false) (hw : env.writeOk s = false) :
    execItem env a s newV = ([], ItemOutcome.exited) := by
  unfold execItem
  rw [hdry, hw]
  rfl

theorem execPlanAux_cons_passed (env : Env) (a : Args) (full : List PlanItem)
    (s : Svc) (cur newV : PyStr) (rest : List PlanItem) (tags : List PyStr)
    (es : List Eff) (h : execItem env a s newV = (es, ItemOutcome.passed))
    (hdry : a.dryRun = false) :
    execPlanAux env a full ((s, cur, newV) :: rest) tags
      = ⟨es ++ (execPlanAux env a full rest (tags ++ [tagNameOf s newV])).effects,
         (execPlanAux env a full rest (tags ++ [tagNameOf s newV])).exitCode⟩ := by
  rw [execPlanAux]
  simp only [h, hdry, Bool.false_eq_true, if_false]

theorem execPlanAux_cons_cpe (env : Env) (a : Args) (full : List PlanItem)
    (s : Svc) (cur newV : PyStr) (rest : List PlanItem) (tags : List PyStr)
    (es : List Eff) (h : execItem env a s newV = (es, ItemOutcome.cpe))
    (hdry : a.dryRun = false) :
    execPlanAux env a full ((s, cur, newV) :: rest) tags
      = ⟨es ++ rollbackEffects env.startHead tags, 1⟩ := by
  rw [execPlanAux]
  simp only [h, hdry, Bool.false_eq_true, if_false]

theorem execPlanAux_cons_exited (env : Env) (a : Args) (full : List PlanItem)
    (s : Svc) (cur newV : PyStr) (rest : List PlanItem) (tags : List PyStr)
    (es : List Eff) (h : execItem env a s newV = (es, ItemOutcome.exited)) :
    execPlanAux env a full ((s, cur, newV) :: rest) tags = ⟨es, 1⟩ := by
  rw [execPlanAux]
  simp only [h]

theorem execPlanAux_nil_push_fail (env : Env) (a : Args) (full : List PlanItem)
    (tags : List PyStr) (hdry : a.dryRun = false)
    (hpush : env.cmdOk (Cmd.gitPush tags) = false) :
    execPlanAux env a full [] tags
      = ⟨Eff.run (Cmd.gitPush tags) :: rollbackEffects env.startHead tags, 1⟩ := by
  rw [execPlanAux]
  rw [show pushTagsOf a full tags = tags by unfold pushTagsOf; rw [hdry]; rfl]
  rw [hdry]
  simp only [Bool.false_eq_true, if_false, hpush]

/-- Executing a prefix of all-successful items accumulates exactly their
traces and their tags. -/
theorem execPlanAux_ok_prefix (env : Env) (a : Args) (full : List PlanItem)
    (hdry : a.dryRun = false) :
    ∀ (pre rest : List PlanItem) (tags : List PyStr),
      (∀ it ∈ pre, itemAllOk env a it) →
      execPlanAux env a full (pre ++ rest) tags
        = ⟨(pre.map (itemTrace a)).flatten
            ++ (execPlanAux env a full rest (tags ++ planTagsOf pre)).effects,
           (execPlanAux env a full rest (tags ++ planTagsOf pre)).exitCode⟩ := by
  intro pre
  induction pre with
  | nil =>
    intro rest tags _
    simp [planTagsOf]
  | cons it pres ih =>
    intro rest tags h
    obtain ⟨s, cur, newV⟩ := it
    obtain ⟨hw, hcmds⟩ := h _ (List.mem_cons_self _ _)
    rw [List.cons_append]
    rw [execPlanAux_cons_passed env a full s cur newV _ _ _
      (execItem_ok env a s newV hdry hw hcmds) hdry]
    rw [ih rest (tags ++ [tagNameOf s newV]) (fun x hx => h x (List.mem_cons_of_mem _ hx))]
    simp [itemTrace, planTagsOf, List.append_assoc]

/-! ### Classifying the produced effects -/

theorem rollbackEffects_eq (h : PyStr) (tags : List PyStr) :
    rollbackEffects h tags
      = tags.reverse.map (fun t => Eff.run (Cmd.gitTagDelete t))
        ++ [Eff.run (Cmd.gitResetHard h)] := by
  unfold rollbackEffects rollback_transaction
  simp

theorem rollbackEffects_shape (h : PyStr) (tags : List PyStr) :
    ∀ e ∈ rollbackEffects h tags,
      (∃ t ∈ tags, e = Eff.run (Cmd.gitTagDelete t))
        ∨ e = Eff.run (Cmd.gitResetHard h) := by
  intro e he
  rw [rollbackEffects_eq] at he
  rcases List.mem_append.1 he with h1 | h2
  · obtain ⟨t, ht, rfl⟩ := List.mem_map.1 h1
    exact Or.inl ⟨t, List.mem_reverse.1 ht, rfl⟩
  · rcases List.mem_singleton.1 h2 with rfl
    exact Or.inr rfl

theorem rollbackEffects_delete_mem (h : PyStr) (tags : List PyStr) (t : PyStr)
    (ht : t ∈ tags) :
    Eff.run (Cmd.gitTagDelete t) ∈ rollbackEffects h tags := by
  rw [rollbackEffects_eq]
  exact List.mem_append_left _
    (List.mem_map.2 ⟨t, List.mem_reverse.2 ht, rfl⟩)

theorem itemTrace_mem (a : Args) (it : PlanItem) (e : Eff) (he : e ∈ itemTrace a it) :
    e = Eff.write it.1 it.2.2 ∨ ∃ c ∈ itemCmds a it.1 it.2.2, e = Eff.run c := by
  unfold itemTrace at he
  rcases List.mem_cons.1 he with rfl | hmem
  · exact Or.inl rfl
  · obtain ⟨c, hc, rfl⟩ := List.mem_map.1 hmem
    exact Or.inr ⟨c, hc, rfl⟩

/-- Writes in a run's effect trace only come from plan items. -/
theorem execPlanAux_write_mem (env : Env) (a : Args) (full : List PlanItem) :
    ∀ (rest : List PlanItem) (tags : List PyStr) (s : Svc) (v : PyStr),
      Eff.write s v ∈ (execPlanAux env a full rest tags).effects →
      s ∈ rest.map (fun it => it.1) := by
  intro rest
  induction rest with
  | nil =>
    intro tags s v hmem
    rw [execPlanAux] at hmem
    by_cases hd : a.dryRun = true
    · rw [if_pos hd] at hmem
      simp at hmem
    · rw [if_neg hd] at hmem
      by_cases hp : env.cmdOk (Cmd.gitPush (pushTagsOf a full tags)) = true
      · rw [if_pos hp] at hmem
        simp at hmem
      · rw [if_neg hp] at hmem
        simp only [List.mem_cons] at hmem
        rcases hmem with h1 | h2
        · exact absurd h1 (by simp)
        · rcases rollbackEffects_shape _ _ _ h2 with ⟨t, _, h3⟩ | h3 <;> simp at h3
  | cons it rests ih =>
    intro tags s v hmem
    obtain ⟨s0, cur0, new0⟩ := it
    rw [execPlanAux] at hmem
    rcases hex : (execItem env a s0 new0) with ⟨es, oc⟩
    have hes : ∀ e ∈ es, e = Eff.write s0 new0 ∨ ∃ c, e = Eff.run c := by
      intro e he2
      unfold execItem at hex
      by_cases hcond : (!a.dryRun && !env.writeOk s0) = true
      · rw [if_pos hcond] at hex
        injection hex with hx1 _
        subst hx1
        simp at he2
      · rw [if_neg hcond] at hex
        injection hex with hx1 _
        subst hx1
        rcases List.mem_append.1 he2 with hw | hr
        · by_cases hd : a.dryRun = true
          · rw [if_pos hd] at hw
            simp at hw
          · rw [if_neg hd] at hw
            rcases List.mem_singleton.1 hw with rfl
            exact Or.inl rfl
        · obtain ⟨c, _, rfl⟩ := runSeq_effects_mem env _ _ hr
          exact Or.inr ⟨c, rfl⟩
    rw [hex] at hmem
    cases oc with
    | exited =>
      simp only at hmem
      rcases hes _ hmem with h1 | ⟨c, h1⟩
      · injection h1 with hx _
        simp [hx]
      · exact absurd h1 (by simp)
    | cpe =>
      simp only at hmem
      rcases List.mem_append.1 hmem with h1 | h2
      · rcases hes _ h1 with h1 | ⟨c, h1⟩
        · injection h1 with hx _
          simp [hx]
        · exact absurd h1 (by simp)
      · by_cases hd : a.dryRun = true
        · rw [if_pos hd] at h2
          simp at h2
        · rw [if_neg hd] at h2
          rcases rollbackEffects_shape _ _ _ h2 with ⟨t, _, h3⟩ | h3 <;> simp at h3
    | passed =>
      simp only at hmem
      rcases List.mem_append.1 hmem with h1 | h2
      · rcases hes _ h1 with h1 | ⟨c, h1⟩
        · injection h1 with hx _
          simp [hx]
        · exact absurd h1 (by simp)
      · have := ih _ s v h2
        simp only [List.map_cons, List.mem_cons]
        exact Or.inr (by simpa using this)

/-! ### Dry-run behaviour -/

theorem execItem_dry (env : Env) (a : Args) (s : Svc) (newV : PyStr)
    (hdry : a.dryRun = true) :
    execItem env a s newV
      = ((runSeq env (release_workflow_cmds s newV a.serverDockerImage
            a.serverLocalDockerBuild)).1,
         if (runSeq env (release_workflow_cmds s newV a.serverDockerImage
            a.serverLocalDockerBuild)).2
         then ItemOutcome.passed else ItemOutcome.cpe) := by
  unfold execItem
  rw [hdry]
  rw [show itemCmds a s newV
      = release_workflow_cmds s newV a.serverDockerImage a.serverLocalDockerBuild by
    unfold itemCmds; rw [hdry]; simp]
  rfl

theorem execPlanAux_dry_effects (env : Env) (a : Args) (full : List PlanItem)
    (hdry : a.dryRun = true) :
    ∀ (rest : List PlanItem) (tags : List PyStr),
      ∀ e ∈ (execPlanAux env a full rest tags).effects,
        ∃ c, e = Eff.run c ∧ isVerifCmd c = true := by
  intro rest
  induction rest with
  | nil =>
    intro tags e he
    rw [execPlanAux, if_pos hdry] at he
    simp at he
  | cons it rests ih =>
    intro tags e he
    obtain ⟨s0, cur0, new0⟩ := it
    rw [execPlanAux] at he
    rw [execItem_dry env a s0 new0 hdry] at he
    by_cases hok : (runSeq env (release_workflow_cmds s0 new0 a.serverDockerImage
        a.serverLocalDockerBuild)).2 = true
    · rw [hok] at he
      simp only [if_true] at he
      rcases List.mem_append.1 he with h1 | h2
      · obtain ⟨c, hc, rfl⟩ := runSeq_effects_mem env _ _ h1
        exact ⟨c, rfl, release_workflow_cmds_verif _ _ _ _ c hc⟩
      · exact ih _ e h2
    · rw [Bool.not_eq_true] at hok
      rw [hok] at he
      simp only [if_false, hdry, if_true] at he
      rcases List.mem_append.1 he with h1 | h2
      · obtain ⟨c, hc, rfl⟩ := runSeq_effects_mem env _ _ h1
        exact ⟨c, rfl, release_workflow_cmds_verif _ _ _ _ c hc⟩
      · simp at h2

theorem execPlanAux_dry_exit (env : Env) (a : Args) (full : List PlanItem)
    (hdry : a.dryRun = true) :
    ∀ (rest : List PlanItem) (tags : List PyStr),
      (execPlanAux env a full rest tags).exitCode
        = if ∀ it ∈ rest, itemVerifOk env a it then 0 else 1 := by
  intro rest
  induction rest with
  | nil =>
    intro tags
    rw [execPlanAux, if_pos hdry]
    simp
  | cons it rests ih =>
    intro tags
    obtain ⟨s0, cur0, new0⟩ := it
    rw [execPlanAux]
    rw [execItem_dry env a s0 new0 hdry]
    by_cases hok : ∀ c ∈ release_workflow_cmds s0 new0 a.serverDockerImage
        a.serverLocalDockerBuild, env.cmdOk c = true
    · rw [show (runSeq env (release_workflow_cmds s0 new0 a.serverDockerImage
          a.serverLocalDockerBuild)).2 = true by rw [runSeq_all_ok env _ hok]]
      simp only [if_true]
      rw [if_pos hdry]
      rw [ih tags]
      by_cases hrest : ∀ it ∈ rests, itemVerifOk env a it
      · rw [if_pos hrest, if_pos]
        intro x hx
        rcases List.mem_cons.1 hx with rfl | hmem
        · exact hok
        · exact hrest x hmem
      · rw [if_neg hrest, if_neg]
        intro hall
        exact hrest (fun x hx => hall x (List.mem_cons_of_mem _ hx))
    · rw [runSeq_false env _ hok]
      simp only [if_false, Bool.false_eq_true]
      rw [if_neg]
      intro hall
      exact hok (hall _ (List.mem_cons_self _ _))

theorem execPlanAux_dry_trace (env : Env) (a : Args) (full : List PlanItem)
    (hdry : a.dryRun = true) :
    ∀ (rest : List PlanItem) (tags : List PyStr),
      (∀ it ∈ rest, itemVerifOk env a it) →
      (execPlanAux env a full rest tags).effects
        = (rest.map (fun it => (release_workflow_cmds it.1 it.2.2 a.serverDockerImage
            a.serverLocalDockerBuild).map Eff.run)).flatten := by
  intro rest
  induction rest with
  | nil =>
    intro tags _
    rw [execPlanAux, if_pos hdry]
    rfl
  | cons it rests ih =>
    intro tags h
    obtain ⟨s0, cur0, new0⟩ := it
    rw [execPlanAux]
    rw [execItem_dry env a s0 new0 hdry]
    rw [show (runSeq env (release_workflow_cmds s0 new0 a.serverDockerImage
        a.serverLocalDockerBuild)).2 = true by
      rw [runSeq_all_ok env _ (h _ (List.mem_cons_self _ _))]]
    simp only [if_true]
    rw [if_pos hdry]
    rw [ih tags (fun x hx => h x (List.mem_cons_of_mem _ hx))]
    rw [show (runSeq env (release_workflow_cmds s0 new0 a.serverDockerImage
        a.serverLocalDockerBuild)).1
      = (release_workflow_cmds s0 new0 a.serverDockerImage
          a.serverLocalDockerBuild).map Eff.run by
      rw [runSeq_all_ok env _ (h _ (List.mem_cons_self _ _))]]
    simp

/-! ### The planner -/

theorem buildPlan_plan_mem (readV : Svc → Option PyStr) (a : Args) :
    ∀ (svcs : List Svc) (plan : List PlanItem) (skipped : List (Svc × PyStr))
      (it : PlanItem),
      buildPlan readV a svcs = some (plan, skipped) → it ∈ plan →
      it.1 ∈ svcs ∧ readV it.1 = some it.2.1
        ∧ compute_new_version it.2.1 a = some it.2.2 ∧ it.2.1 ≠ it.2.2 := by
  intro svcs
  induction svcs with
  | nil =>
    intro plan skipped it hb hmem
    rw [buildPlan] at hb
    injection hb with hb
    injection hb with hb1 _
    subst hb1
    simp at hmem
  | cons s rest ih =>
    intro plan skipped it hb hmem
    rw [buildPlan] at hb
    rcases hrv : readV s with _ | cur
    · simp [hrv] at hb
    rcases hcv : compute_new_version cur a with _ | newV
    · simp [hrv, hcv] at hb
    simp only [hrv, hcv] at hb
    by_cases heq : cur = newV
    · rw [if_pos heq] at hb
      rcases hrec : buildPlan readV a rest with _ | ⟨pl, sk⟩
      · simp [hrec] at hb
      simp only [hrec, Option.some.injEq, Prod.mk.injEq] at hb
      obtain ⟨hb1, _⟩ := hb
      subst hb1
      obtain ⟨h1, h2, h3, h4⟩ := ih pl sk it hrec hmem
      exact ⟨List.mem_cons_of_mem _ h1, h2, h3, h4⟩
    · rw [if_neg heq] at hb
      rcases hp1 : parse_semver newV with _ | t1
      · simp [hp1] at hb
      rcases hp2 : parse_semver cur with _ | t2
      · simp [hp1, hp2] at hb
      simp only [hp1, hp2] at hb
      rcases hrec : buildPlan readV a rest with _ | ⟨pl, sk⟩
      · simp [hrec] at hb
      simp only [hrec, Option.some.injEq, Prod.mk.injEq] at hb
      obtain ⟨hb1, hb2⟩ := hb
      subst hb1
      rcases List.mem_cons.1 hmem with rfl | hmem2
      · exact ⟨List.mem_cons_self _ _, hrv, hcv, heq⟩
      · obtain ⟨h1, h2, h3, h4⟩ := ih pl sk it hrec hmem2
        exact ⟨List.mem_cons_of_mem _ h1, h2, h3, h4⟩

theorem buildPlan_skipped_mem (readV : Svc → Option PyStr) (a : Args) :
    ∀ (svcs : List Svc) (plan : List PlanItem) (skipped : List (Svc × PyStr))
      (s : Svc) (cur : PyStr),
      buildPlan readV a svcs = some (plan, skipped) → s ∈ svcs →
      readV s = some cur → compute_new_version cur a = some cur →
      (s, cur) ∈ skipped := by
  intro svcs
  induction svcs with
  | nil =>
    intro plan skipped s cur _ hmem
    simp at hmem
  | cons s0 rest ih =>
    intro plan skipped s cur hb hmem hrv hcv
    rw [buildPlan] at hb
    rcases List.mem_cons.1 hmem with rfl | hmem2
    · simp only [hrv, hcv, eq_self_iff_true, if_true] at hb
      rcases hrec : buildPlan readV a rest with _ | ⟨pl, sk⟩
      · simp [hrec] at hb
      simp only [hrec, Option.some.injEq, Prod.mk.injEq] at hb
      obtain ⟨_, hb2⟩ := hb
      subst hb2
      exact List.mem_cons_self _ _
    · rcases hrv0 : readV s0 with _ | cur0
      · simp [hrv0] at hb
      rcases hcv0 : compute_new_version cur0 a with _ | new0
      · simp [hrv0, hcv0] at hb
      simp only [hrv0, hcv0] at hb
      by_cases heq : cur0 = new0
      · rw [if_pos heq] at hb
        rcases hrec : buildPlan readV a rest with _ | ⟨pl, sk⟩
        · simp [hrec] at hb
        simp only [hrec, Option.some.injEq, Prod.mk.injEq] at hb
        obtain ⟨_, hb2⟩ := hb
        subst hb2
        exact List.mem_cons_of_mem _ (ih pl sk s cur hrec hmem2 hrv hcv)
      · rw [if_neg heq] at hb
        rcases hp1 : parse_semver new0 with _ | t1
        · simp [hp1] at hb
        rcases hp2 : parse_semver cur0 with _ | t2
        · simp [hp1, hp2] at hb
        simp only [hp1, hp2] at hb
        rcases hrec : buildPlan readV a rest with _ | ⟨pl, sk⟩
        · simp [hrec] at hb
        simp only [hrec, Option.some.injEq, Prod.mk.injEq] at hb
        obtain ⟨_, hb2⟩ := hb
        subst hb2
        exact ih pl sk s cur hrec hmem2 hrv hcv

/-! ### Unfolding `mainModel` under the preconditions -/

theorem mainModel_eq_exec (env : Env) (a : Args) (plan : List PlanItem)
    (skipped : List (Svc × PyStr))
    (h1 : env.dirty = false) (h2 : env.branch = masterS)
    (h3 : buildPlan env.readV a (dedupSvcs a.services) = some (plan, skipped))
    (h4 : plan ≠ []) (h5 : a.yes = true) :
    mainModel env a = mainExec env a plan := by
  unfold mainModel
  rw [h1, h3]
  simp only [Bool.false_eq_true, if_false]
  rw [if_neg (by simp [h2])]
  rw [if_neg (by simp [h4])]
  rw [if_neg (by simp [h5])]

theorem mainModel_empty_plan (env : Env) (a : Args) (skipped : List (Svc × PyStr))
    (h1 : env.dirty = false) (h2 : env.branch = masterS)
    (h3 : buildPlan env.readV a (dedupSvcs a.services) = some ([], skipped)) :
    mainModel env a = ⟨[], 0⟩ := by
  unfold mainModel
  rw [h1, h3]
  simp only [Bool.false_eq_true, if_false]
  rw [if_neg (by simp [h2])]
  rw [if_pos (by simp)]

/-! ## The claims -/

/-- C5: bump arithmetic is pure and deterministic: for every current
version rendered from the triple `(M, m, p)`, a major bump yields
`(M+1, 0, 0)`, a minor bump `(M, m+1, 0)`, a patch bump `(M, m, p+1)`;
in particular `patch(1.2.3) = 1.2.4`, `minor(1.2.3) = 1.3.0`,
`major(1.2.3) = 2.0.0`. -/
theorem bump_arithmetic (M m p : Nat) :
    bump_version (renderVersion M m p) true false false = some (renderVersion (M + 1) 0 0)
    ∧ bump_version (renderVersion M m p) false true false = some (renderVersion M (m + 1) 0)
    ∧ bump_version (renderVersion M m p) false false true = some (renderVersion M m (p + 1))
    ∧ bump_version ("1.2.3".data) false false true = some ("1.2.4".data)
    ∧ bump_version ("1.2.3".data) false true false = some ("1.3.0".data)
    ∧ bump_version ("1.2.3".data) true false false = some ("2.0.0".data) := by
  refine ⟨?_, ?_, ?_, by decide, by decide, by decide⟩ <;>
    simp [bump_version, parse_semver_render]

/-- C8: for a server release with the local container build explicitly
requested, the verification pipeline runs the UI checks and then builds
one image carrying both the version-qualified tag `<repo>:v<version>` and
the floating tag `<repo>:latest`; no `cargo build` release-build step
appears in the pipeline — the container build replaces it. -/
theorem server_docker_build_replaces (image v : PyStr) :
    server_image_tags image v = (image ++ ":v".data ++ v, image ++ ":latest".data)
    ∧ release_workflow_cmds Svc.server v image true
      = [Cmd.npmCi, Cmd.npmLint ("apps/server-ui".data),
         Cmd.npmCheck ("apps/server-ui".data), Cmd.npmTest ("apps/server-ui".data),
         Cmd.dockerBuild (image ++ ":v".data ++ v) (image ++ ":latest".data)]
    ∧ (release_workflow_cmds Svc.server v image true).all
        (fun c => !(isCargoBuild c)) = true :=
  ⟨rfl, rfl, rfl⟩

/-- C9: `rollback_transaction` over an empty created-tags list issues no
tag deletion and exactly one hard reset to the given revision; and when
`HEAD` already equals that revision it is a no-op on the repository
state. -/
theorem rollback_empty_tags (h : PyStr) (st : RepoState) :
    rollback_transaction h [] = [Cmd.gitResetHard h]
    ∧ (st.head = h → applyUndoAll st (rollback_transaction h []) = st) := by
  refine ⟨rfl, fun hh => ?_⟩
  subst hh
  rfl

theorem rollback_empty_tags_witness :
    rollback_transaction ("abc123".data) [] = [Cmd.gitResetHard ("abc123".data)]
    ∧ applyUndoAll ⟨"abc123".data, ["v1".data]⟩ (rollback_transaction ("abc123".data) [])
      = ⟨"abc123".data, ["v1".data]⟩ :=
  ⟨(rollback_empty_tags ("abc123".data) ⟨"abc123".data, ["v1".data]⟩).1,
   (rollback_empty_tags ("abc123".data) ⟨"abc123".data, ["v1".data]⟩).2 rfl⟩

theorem parseVersionAssign_startsWith (s x : PyStr)
    (h : parseVersionAssign s = some x) : startsWithL vKey s = true := by
  by_cases hs : startsWithL vKey s = true
  · exact hs
  · rw [parseVersionAssign_not_version s (by simpa using hs)] at h
    exact absurd h (by simp)

theorem vKey_prefix_core (v : PyStr) :
    startsWithL vKey (versionEqQuote ++ v ++ quoteS) = true := by
  refine (startsWithL_iff _ _).2 ⟨' ' :: '=' :: ' ' :: ['"'] ++ v ++ quoteS, ?_⟩
  rw [versionEqQuote_split]
  simp [List.append_assoc]

/-- C10: `update_package_version` replaces the first line of the
`[package]` section whose stripped text merely starts with `version` — a
key with a `version` prefix (such as `versioning`) occurring before the
genuine version key is the line that gets rewritten, and every later
line, a genuine version line included, is left untouched. -/
theorem first_version_prefix_line_rewritten (V : PyStr) (A : List PyStr)
    (hline : PyStr) (B : List PyStr) (vline : PyStr) (C : List PyStr)
    (hA : ∀ l ∈ A, pyStrip l ≠ pkgHdr)
    (hh : pyStrip hline = pkgHdr)
    (hB : ∀ l ∈ B, pyStrip l ≠ pkgHdr ∧ isSectionHeaderLine (pyStrip l) = false
      ∧ startsWithL vKey (pyStrip l) = false)
    (hv : startsWithL vKey (pyStrip vline) = true) :
    update_package_version V (A ++ hline :: (B ++ vline :: C))
      = some (A ++ hline :: (B ++ rewriteLine V vline :: C)) :=
  update_package_version_structure V A hline B vline C hA hh hB hv

theorem first_version_prefix_line_rewritten_witness :
    update_package_version ("9.9.9".data) trickyManifest = some trickyManifestAfter := by
  have h := first_version_prefix_line_rewritten ("9.9.9".data) [] ("[package]\n".data)
    [] ("versioning = \"scheme\"\n".data) ["version = \"1.2.3\"\n".data]
    (by decide) (by decide) (by decide) (by decide)
  rw [show rewriteLine ("9.9.9".data) ("versioning = \"scheme\"\n".data)
      = "version = \"9.9.9\"\n".data by decide] at h
  exact h

/-- C4 counterexample: a valid manifest whose `[package]` section holds a
`versioning` key before the genuine `version` key. The update succeeds
but rewrites the `versioning` line, leaving two `version` keys, so the
read-back fails (duplicate TOML key) instead of returning the written
version — refuting the round-trip claim for this manifest. -/
theorem roundtrip_claim_counterexample :
    read_version trickyManifest = some ("1.2.3".data)
    ∧ update_package_version ("9.9.9".data) trickyManifest = some trickyManifestAfter
    ∧ read_version trickyManifestAfter = none
    ∧ ¬(read_version trickyManifestAfter = some ("9.9.9".data)) := by
  refine ⟨by decide, by decide, by decide, by decide⟩

/-- C4 amended: for manifests whose `[package]` section's first
`version`-prefixed line is the genuine (and, up to the next section, the
only) version assignment, and for a nonempty quote-free target version —
the shape the CLI's `X.Y.Z` validation guarantees — rewriting and then
reading back returns exactly the written version, and every line other
than the rewritten version line is byte-identical, the rewritten line
keeping its original indentation and terminator. -/
theorem roundtrip_amended (A : List PyStr) (hline : PyStr) (B : List PyStr)
    (vline : PyStr) (C : List PyStr) (V oldV : PyStr)
    (hA : ∀ l ∈ A, pyStrip l ≠ pkgHdr)
    (hh : pyStrip hline = pkgHdr)
    (hB : ∀ l ∈ B, pyStrip l ≠ pkgHdr ∧ isSectionHeaderLine (pyStrip l) = false
      ∧ startsWithL vKey (pyStrip l) = false)
    (hv : parseVersionAssign (pyStrip vline) = some oldV)
    (hC : ∀ l ∈ C.takeWhile (fun x => !(isSectionHeaderLine (pyStrip x))),
      parseVersionAssign (pyStrip l) = none)
    (hVq : ∀ c ∈ V, ¬(c = '"')) (hVne : V ≠ []) :
    update_package_version V (A ++ hline :: (B ++ vline :: C))
      = some (A ++ hline :: (B ++ rewriteLine V vline :: C))
    ∧ read_version (A ++ hline :: (B ++ rewriteLine V vline :: C)) = some V := by
  have hsw : startsWithL vKey (pyStrip vline) = true :=
    parseVersionAssign_startsWith _ _ hv
  constructor
  · exact update_package_version_structure V A hline B vline C hA hh hB hsw
  · have hstrip : pyStrip (rewriteLine V vline) = versionEqQuote ++ V ++ quoteS :=
      pyStrip_rewriteLine V vline
    refine read_version_structure A hline B (rewriteLine V vline) C V hA hh ?_ ?_ ?_ hC hVne
    · intro l hl
      exact ⟨(hB l hl).2.1, parseVersionAssign_not_version _ (hB l hl).2.2⟩
    · rw [hstrip]
      exact (startsWith_vKey_shape _ (vKey_prefix_core V)).2
    · rw [hstrip]
      exact parseVersionAssign_core V hVq

theorem roundtrip_amended_witness :
    update_package_version ("2.0.0".data)
      ["[package]\n".data, "name = \"opt\"\n".data, "version = \"1.2.3\"\n".data]
      = some ["[package]\n".data, "name = \"opt\"\n".data, "version = \"2.0.0\"\n".data]
    ∧ read_version
        ["[package]\n".data, "name = \"opt\"\n".data, "version = \"2.0.0\"\n".data]
      = some ("2.0.0".data) := by
  have h := roundtrip_amended [] ("[package]\n".data) ["name = \"opt\"\n".data]
    ("version = \"1.2.3\"\n".data) [] ("2.0.0".data) ("1.2.3".data)
    (by decide) (by decide) (by decide) (by decide) (by decide) (by decide) (by decide)
  rw [show rewriteLine ("2.0.0".data) ("version = \"1.2.3\"\n".data)
      = "version = \"2.0.0\"\n".data by decide] at h
  exact h

/-- C2, the code evaluated at the failing input: in the non-dry run
`forwarder receiver --patch --yes` where the receiver's manifest write
hits the `ValueError` (ManifestError) after the forwarder was fully
committed and tagged, the program exits 1 via `sys.exit(1)` inside
`write_version` — a `SystemExit` that the transaction's
`except subprocess.CalledProcessError` handler does not catch — so the
forwarder's commit and tag are left in place: the effect trace contains
the forwarder commit and tag and not a single `git tag -d` or
`git reset --hard`, contradicting the claimed rollback. -/
theorem manifest_error_mid_run_no_rollback :
    (mainModel envRecvWriteFail argsFwdRecv).exitCode = 1
    ∧ Eff.run (Cmd.gitCommit ("chore(forwarder): bump version to 0.1.1".data))
        ∈ (mainModel envRecvWriteFail argsFwdRecv).effects
    ∧ Eff.run (Cmd.gitTag ("forwarder-v0.1.1".data))
        ∈ (mainModel envRecvWriteFail argsFwdRecv).effects
    ∧ (mainModel envRecvWriteFail argsFwdRecv).effects.all
        (fun e => !(isRollbackEff e)) = true :=
  ⟨by decide, by decide, by decide, by decide⟩

/-- C1 counterexample: every per-component step succeeds and only the
final atomic push exits non-zero, yet the run deletes the tag it created
and hard-resets to the starting revision — the push failure is handled by
the same `except`/rollback path as any other command failure, not as a
distinct no-rollback error class. -/
theorem push_failure_claim_counterexample :
    (mainModel envPushFail argsFwd).exitCode = 1
    ∧ Eff.run (Cmd.gitTag ("forwarder-v0.1.1".data)) ∈ (mainModel envPushFail argsFwd).effects
    ∧ Eff.run (Cmd.gitTagDelete ("forwarder-v0.1.1".data))
        ∈ (mainModel envPushFail argsFwd).effects
    ∧ Eff.run (Cmd.gitResetHard ("abc123".data)) ∈ (mainModel envPushFail argsFwd).effects :=
  ⟨by decide, by decide, by decide, by decide⟩

/-- C1 amended: if every per-component stage/verify/commit/tag step
succeeded and only the final atomic push exits non-zero, the program
performs the same local rollback as any mid-run failure: after the failed
push it deletes every tag created by the run (in reverse order) and
attempts a hard reset to the starting revision, then exits non-zero
through the same error path as other command failures. -/
theorem push_failure_rolls_back (env : Env) (a : Args) (plan : List PlanItem)
    (skipped : List (Svc × PyStr))
    (h1 : env.dirty = false) (h2 : env.branch = masterS)
    (h3 : buildPlan env.readV a (dedupSvcs a.services) = some (plan, skipped))
    (h4 : plan ≠ []) (h5 : a.yes = true) (hdry : a.dryRun = false)
    (hok : ∀ it ∈ plan, itemAllOk env a it)
    (hpush : env.cmdOk (Cmd.gitPush (planTagsOf plan)) = false) :
    mainModel env a
      = ⟨(plan.map (itemTrace a)).flatten
          ++ Eff.run (Cmd.gitPush (planTagsOf plan))
            :: rollbackEffects env.startHead (planTagsOf plan), 1⟩ := by
  rw [mainModel_eq_exec env a plan skipped h1 h2 h3 h4 h5]
  unfold mainExec
  have h := execPlanAux_ok_prefix env a plan hdry plan [] [] hok
  rw [List.append_nil, List.nil_append] at h
  rw [execPlanAux_nil_push_fail env a plan (planTagsOf plan) hdry hpush] at h
  rw [h]

theorem push_failure_rolls_back_witness :
    mainModel envPushFail argsFwd
      = ⟨([(Svc.forwarder, "0.1.0".data, "0.1.1".data)].map (itemTrace argsFwd)).flatten
          ++ Eff.run (Cmd.gitPush (planTagsOf [(Svc.forwarder, "0.1.0".data, "0.1.1".data)]))
            :: rollbackEffects envPushFail.startHead
              (planTagsOf [(Svc.forwarder, "0.1.0".data, "0.1.1".data)]), 1⟩ :=
  push_failure_rolls_back envPushFail argsFwd
    [(Svc.forwarder, "0.1.0".data, "0.1.1".data)] []
    rfl rfl (by decide) (by decide) rfl rfl (by decide) (by decide)

/-- C3: in a non-dry run whose plan places a verification-failing
component at position `k` (after the all-successful prefix `pre`), the
run exits non-zero, never attempts a push, creates tags only for the
prefix and deletes every one of them, and its final action is the hard
reset to the revision captured before the first mutation. -/
theorem verification_failure_rolls_back (env : Env) (a : Args)
    (pre : List PlanItem) (s : Svc) (cur newV : PyStr) (post : List PlanItem)
    (skipped : List (Svc × PyStr))
    (h1 : env.dirty = false) (h2 : env.branch = masterS)
    (h3 : buildPlan env.readV a (dedupSvcs a.services)
      = some (pre ++ (s, cur, newV) :: post, skipped))
    (h5 : a.yes = true) (hdry : a.dryRun = false)
    (hok : ∀ it ∈ pre, itemAllOk env a it)
    (hw : env.writeOk s = true)
    (hfail : ¬ itemVerifOk env a (s, cur, newV)) :
    (mainModel env a).exitCode = 1
    ∧ (∀ ts, Eff.run (Cmd.gitPush ts) ∉ (mainModel env a).effects)
    ∧ (∀ t, Eff.run (Cmd.gitTag t) ∈ (mainModel env a).effects →
        t ∈ planTagsOf pre ∧ Eff.run (Cmd.gitTagDelete t) ∈ (mainModel env a).effects)
    ∧ (∃ es, (mainModel env a).effects
        = es ++ [Eff.run (Cmd.gitResetHard env.startHead)]) := by
  have hwf : (runSeq env (release_workflow_cmds s newV a.serverDockerImage
      a.serverLocalDockerBuild)).2 = false := runSeq_false env _ hfail
  have hitem : itemCmds a s newV
      = release_workflow_cmds s newV a.serverDockerImage a.serverLocalDockerBuild
        ++ [Cmd.gitAdd (cargoPath s), Cmd.gitCommit (commitMsg s newV),
            Cmd.gitTag (tagNameOf s newV)] := by
    unfold itemCmds
    rw [hdry]
    rfl
  have hrs : runSeq env (itemCmds a s newV)
      = ((runSeq env (release_workflow_cmds s newV a.serverDockerImage
          a.serverLocalDockerBuild)).1, false) := by
    rw [hitem]
    exact runSeq_append_fail env _ _ hwf
  have hex : execItem env a s newV
      = (Eff.write s newV :: (runSeq env (release_workflow_cmds s newV
          a.serverDockerImage a.serverLocalDockerBuild)).1, ItemOutcome.cpe) := by
    rw [execItem_fail env a s newV hdry hw (by rw [hrs]), hrs]
  have hp := execPlanAux_ok_prefix env a (pre ++ (s, cur, newV) :: post) hdry
    pre ((s, cur, newV) :: post) [] hok
  rw [List.nil_append] at hp
  rw [execPlanAux_cons_cpe env a (pre ++ (s, cur, newV) :: post) s cur newV post
    (planTagsOf pre) _ hex hdry] at hp
  have hmain : mainModel env a
      = ⟨(pre.map (itemTrace a)).flatten
          ++ ((Eff.write s newV :: (runSeq env (release_workflow_cmds s newV
              a.serverDockerImage a.serverLocalDockerBuild)).1)
            ++ rollbackEffects env.startHead (planTagsOf pre)), 1⟩ := by
    rw [mainModel_eq_exec env a _ skipped h1 h2 h3 (by simp) h5]
    unfold mainExec
    rw [hp]
  rw [hmain]
  refine ⟨rfl, ?_, ?_, ?_⟩
  · intro ts hmem
    rcases List.mem_append.1 hmem with hE1 | hrest
    · obtain ⟨tr, htr, hin⟩ := List.mem_flatten.1 hE1
      obtain ⟨it, hit, rfl⟩ := List.mem_map.1 htr
      rcases itemTrace_mem a it _ hin with heq | ⟨c, hc, heq⟩
      · simp at heq
      · have hcc : c = Cmd.gitPush ts := by
          injection heq with hcc
          exact hcc.symm
        exact itemCmds_no_push a it.1 it.2.2 c hc ts hcc
    · rcases List.mem_append.1 hrest with hE2 | hE3
      · rcases List.mem_cons.1 hE2 with heq | hE2'
        · simp at heq
        · obtain ⟨c, hc, heq⟩ := runSeq_effects_mem env _ _ hE2'
          have hv := release_workflow_cmds_verif s newV _ _ c hc
          have hcc : c = Cmd.gitPush ts := by
            injection heq with hcc
            exact hcc.symm
          rw [hcc] at hv
          exact absurd hv (by simp [isVerifCmd])
      · rcases rollbackEffects_shape _ _ _ hE3 with ⟨t2, _, heq⟩ | heq <;> simp at heq
  · intro t hmem
    have hsrc : t ∈ planTagsOf pre := by
      rcases List.mem_append.1 hmem with hE1 | hrest
      · obtain ⟨tr, htr, hin⟩ := List.mem_flatten.1 hE1
        obtain ⟨it, hit, rfl⟩ := List.mem_map.1 htr
        rcases itemTrace_mem a it _ hin with heq | ⟨c, hc, heq⟩
        · simp at heq
        · have hcc : Cmd.gitTag t = c := by
            injection heq with hcc
          rw [← hcc] at hc
          have ht := itemCmds_tag_eq a it.1 it.2.2 t hc
          rw [ht]
          unfold planTagsOf
          exact List.mem_map.2 ⟨it, hit, rfl⟩
      · rcases List.mem_append.1 hrest with hE2 | hE3
        · rcases List.mem_cons.1 hE2 with heq | hE2'
          · simp at heq
          · obtain ⟨c, hc, heq⟩ := runSeq_effects_mem env _ _ hE2'
            have hv := release_workflow_cmds_verif s newV _ _ c hc
            have hcc : c = Cmd.gitTag t := by
              injection heq with hcc
              exact hcc.symm
            rw [hcc] at hv
            exact absurd hv (by simp [isVerifCmd])
        · rcases rollbackEffects_shape _ _ _ hE3 with ⟨t2, _, heq⟩ | heq <;> simp at heq
    refine ⟨hsrc, ?_⟩
    exact List.mem_append_right _
      (List.mem_append_right _ (rollbackEffects_delete_mem _ _ _ hsrc))
  · rw [rollbackEffects_eq]
    refine ⟨(pre.map (itemTrace a)).flatten
      ++ ((Eff.write s newV :: (runSeq env (release_workflow_cmds s newV
          a.serverDockerImage a.serverLocalDockerBuild)).1)
        ++ (planTagsOf pre).reverse.map (fun t => Eff.run (Cmd.gitTagDelete t))), ?_⟩
    simp [List.append_assoc]

theorem verification_failure_rolls_back_witness :
    (mainModel envRecvBuildFail argsFwdRecv).exitCode = 1
    ∧ Eff.run (Cmd.gitPush ["forwarder-v0.1.1".data, "receiver-v0.1.1".data])
        ∉ (mainModel envRecvBuildFail argsFwdRecv).effects
    ∧ (Eff.run (Cmd.gitTag ("forwarder-v0.1.1".data))
          ∈ (mainModel envRecvBuildFail argsFwdRecv).effects →
        "forwarder-v0.1.1".data
            ∈ planTagsOf [(Svc.forwarder, "0.1.0".data, "0.1.1".data)]
          ∧ Eff.run (Cmd.gitTagDelete ("forwarder-v0.1.1".data))
              ∈ (mainModel envRecvBuildFail argsFwdRecv).effects)
    ∧ (∃ es, (mainModel envRecvBuildFail argsFwdRecv).effects
        = es ++ [Eff.run (Cmd.gitResetHard ("abc123".data))]) := by
  have h := verification_failure_rolls_back envRecvBuildFail argsFwdRecv
    [(Svc.forwarder, "0.1.0".data, "0.1.1".data)] Svc.receiver
    ("0.1.0".data) ("0.1.1".data) [] []
    rfl rfl (by decide) rfl rfl (by decide) (by decide) (by decide)
  exact ⟨h.1, h.2.1 _, h.2.2.1 _, h.2.2.2⟩

theorem mem_dedupAux : ∀ (l seen : List Svc) (s : Svc),
    s ∈ dedupAux seen l ↔ (s ∈ l ∧ s ∉ seen) := by
  intro l
  induction l with
  | nil =>
    intro seen s
    simp [dedupAux]
  | cons x xs ih =>
    intro seen s
    rw [dedupAux]
    by_cases hx : x ∈ seen
    · rw [if_pos hx, ih]
      constructor
      · rintro ⟨hm1, hm2⟩
        exact ⟨List.mem_cons_of_mem _ hm1, hm2⟩
      · rintro ⟨hm1, hm2⟩
        rcases List.mem_cons.1 hm1 with rfl | hmem
        · exact absurd hx hm2
        · exact ⟨hmem, hm2⟩
    · rw [if_neg hx]
      constructor
      · intro hm
        rcases List.mem_cons.1 hm with rfl | hmem
        · exact ⟨List.mem_cons_self _ _, hx⟩
        · obtain ⟨hh1, hh2⟩ := (ih (x :: seen) s).1 hmem
          exact ⟨List.mem_cons_of_mem _ hh1,
            fun hs => hh2 (List.mem_cons_of_mem _ hs)⟩
      · rintro ⟨hm1, hm2⟩
        rcases List.mem_cons.1 hm1 with rfl | hmem
        · exact List.mem_cons_self _ _
        · by_cases hsx : s = x
          · subst hsx
            exact List.mem_cons_self _ _
          · refine List.mem_cons_of_mem _ ((ih (x :: seen) s).2 ⟨hmem, ?_⟩)
            intro hs
            rcases List.mem_cons.1 hs with hcase | hcase
            · exact hsx hcase
            · exact hm2 hcase

theorem mem_dedupSvcs (l : List Svc) (s : Svc) : s ∈ dedupSvcs l ↔ s ∈ l := by
  unfold dedupSvcs
  rw [mem_dedupAux]
  simp

theorem mainModel_effects_cases (env : Env) (a : Args) (plan : List PlanItem)
    (skipped : List (Svc × PyStr))
    (h1 : env.dirty = false) (h2 : env.branch = masterS)
    (h3 : buildPlan env.readV a (dedupSvcs a.services) = some (plan, skipped)) :
    mainModel env a = ⟨[], 0⟩ ∨ mainModel env a = mainExec env a plan := by
  unfold mainModel
  rw [h1, h3]
  simp only [Bool.false_eq_true, if_false]
  rw [if_neg (by simp [h2])]
  by_cases hempty : plan.isEmpty = true
  · rw [if_pos hempty]
    exact Or.inl rfl
  · rw [if_neg hempty]
    by_cases hconf : (!a.yes && !env.confirm) = true
    · rw [if_pos hconf]
      exact Or.inl rfl
    · rw [if_neg hconf]
      exact Or.inr rfl

/-- C6: a requested component whose current version equals the computed
target lands only in the skipped list, never in the plan, and its
manifest is never written; and when every component is skipped (empty
plan) the run ends with exit code 0 and no effect at all. -/
theorem skipped_components (env : Env) (a : Args) (plan : List PlanItem)
    (skipped : List (Svc × PyStr)) (s : Svc) (cur : PyStr)
    (h1 : env.dirty = false) (h2 : env.branch = masterS)
    (h3 : buildPlan env.readV a (dedupSvcs a.services) = some (plan, skipped)) :
    (s ∈ a.services → env.readV s = some cur →
      compute_new_version cur a = some cur →
      (s, cur) ∈ skipped ∧ s ∉ plan.map (fun it => it.1)
        ∧ ∀ v, Eff.write s v ∉ (mainModel env a).effects)
    ∧ (plan = [] → mainModel env a = ⟨[], 0⟩) := by
  constructor
  · intro hsvc hrv hcv
    have hdd : s ∈ dedupSvcs a.services := (mem_dedupSvcs _ _).2 hsvc
    have hsk := buildPlan_skipped_mem env.readV a _ plan skipped s cur h3 hdd hrv hcv
    have hnp : s ∉ plan.map (fun it => it.1) := by
      intro hmem
      obtain ⟨it, hit, hfst⟩ := List.mem_map.1 hmem
      obtain ⟨_, hrv', hcv', hne⟩ := buildPlan_plan_mem env.readV a _ plan skipped it h3 hit
      rw [hfst, hrv] at hrv'
      injection hrv' with hcur
      rw [← hcur, hcv] at hcv'
      injection hcv' with hnew
      exact hne (hcur.symm.trans hnew)
    refine ⟨hsk, hnp, ?_⟩
    intro v hmem
    rcases mainModel_effects_cases env a plan skipped h1 h2 h3 with hcase | hcase
    · rw [hcase] at hmem
      simp at hmem
    · rw [hcase] at hmem
      exact hnp (execPlanAux_write_mem env a plan plan [] s v hmem)
  · intro hpl
    subst hpl
    exact mainModel_empty_plan env a skipped h1 h2 h3

theorem skipped_components_witness :
    (Svc.forwarder, ("0.1.0".data)) ∈ [(Svc.forwarder, "0.1.0".data)]
    ∧ Svc.forwarder ∉ ([] : List PlanItem).map (fun it => it.1)
    ∧ Eff.write Svc.forwarder ("0.1.0".data) ∉ (mainModel envAllOk argsFwdSame).effects
    ∧ mainModel envAllOk argsFwdSame = ⟨[], 0⟩ := by
  have h := skipped_components envAllOk argsFwdSame [] [(Svc.forwarder, "0.1.0".data)]
    Svc.forwarder ("0.1.0".data) rfl rfl (by decide)
  obtain ⟨w1, w2, w3⟩ := h.1 (by decide) rfl rfl
  exact ⟨w1, w2, w3 _, h.2 rfl⟩

/-- C7: a dry run over a nonempty plan executes every verification step
for real and only those — its effect trace consists purely of
verification-command runs, containing no manifest write and no git
mutation; the exit code is 0 exactly when every verification command of
every planned item succeeds, and 1 otherwise; on full success the trace
is exactly the concatenation of every item's verification pipeline. -/
theorem dry_run_frame (env : Env) (a : Args) (plan : List PlanItem)
    (skipped : List (Svc × PyStr))
    (h1 : env.dirty = false) (h2 : env.branch = masterS)
    (h3 : buildPlan env.readV a (dedupSvcs a.services) = some (plan, skipped))
    (h4 : plan ≠ []) (h5 : a.yes = true) (hdry : a.dryRun = true) :
    (∀ e ∈ (mainModel env a).effects, ∃ c, e = Eff.run c ∧ isVerifCmd c = true)
    ∧ ((mainModel env a).exitCode
        = if ∀ it ∈ plan, itemVerifOk env a it then 0 else 1)
    ∧ ((∀ it ∈ plan, itemVerifOk env a it) →
        (mainModel env a).effects
          = (plan.map (fun it => (release_workflow_cmds it.1 it.2.2
              a.serverDockerImage a.serverLocalDockerBuild).map Eff.run)).flatten) := by
  rw [mainModel_eq_exec env a plan skipped h1 h2 h3 h4 h5]
  exact ⟨execPlanAux_dry_effects env a plan hdry plan [],
    execPlanAux_dry_exit env a plan hdry plan [],
    fun hall => execPlanAux_dry_trace env a plan hdry plan [] hall⟩

theorem dry_run_frame_witness :
    (mainModel envAllOk argsFwdDry).exitCode
      = (if ∀ it ∈ [(Svc.forwarder, "0.1.0".data, "0.1.1".data)],
          itemVerifOk envAllOk argsFwdDry it then 0 else 1)
    ∧ (mainModel envAllOk argsFwdDry).effects
      = ([(Svc.forwarder, "0.1.0".data, "0.1.1".data)].map (fun it =>
          (release_workflow_cmds it.1 it.2.2 argsFwdDry.serverDockerImage
            argsFwdDry.serverLocalDockerBuild).map Eff.run)).flatten := by
  have h := dry_run_frame envAllOk argsFwdDry
    [(Svc.forwarder, "0.1.0".data, "0.1.1".data)] []
    rfl rfl (by decide) (by decide) rfl rfl
  exact ⟨h.2.1, h.2.2 (by decide)⟩

end RustyTimer
